import Mathlib

/-!
Verification development for the BuyHatke scraper (`src/app.py`).

The Python source is shallowly embedded: text is `List Char`, Python's
machine-width-free `int` is `Nat`/`Int`, JS numeric values decoded by the
tolerant decoder are `Rat` (Python `int`/`float` on the decoded records;
exact rationals suffice for the integer-truncation behaviour that is
specified), and fallible functions return `Except`/`Option`.  Every
definition is translated from the source; definitions written from the
specification's words instead (used only to compare spec against code)
say so in their doc comment.
-/

/-! ### Character helpers -/

/-- The character class `[a-z0-9]` of `normalize_slug`'s first regex
(`re.sub(r"[^a-z0-9]+", "-", s)`, `src/app.py:46`). -/
def lowAlnum (c : Char) : Bool :=
  decide (('a' ≤ c ∧ c ≤ 'z') ∨ ('0' ≤ c ∧ c ≤ '9'))

/-- Whitespace removed by Python's `str.strip()` (`src/app.py:45`).
Python also strips `\f`, `\v` and Unicode spaces; over the texts this
program manipulates the ASCII fragment below is the relevant one, and
every theorem concerning `normalize_slug` only uses that stripped
characters are outside `[a-z0-9-]`. -/
def isWS (c : Char) : Bool :=
  decide (c = ' ' ∨ c = '\t' ∨ c = '\n' ∨ c = '\r')

/-- Decimal digit character for a value `< 10` (used to render Python's
decimal formatting of integers). -/
def digitChar (d : Nat) : Char :=
  if d = 0 then '0' else if d = 1 then '1' else if d = 2 then '2'
  else if d = 3 then '3' else if d = 4 then '4' else if d = 5 then '5'
  else if d = 6 then '6' else if d = 7 then '7' else if d = 8 then '8' else '9'

/-- Numeric value of a string of decimal digits: the semantics of Python's
`int(digits)` on an all-digit string (`src/app.py:113`). -/
def digitsVal (ds : List Char) : Nat :=
  ds.foldl (fun a c => a * 10 + (c.toNat - 48)) 0

/-- Decimal digits of a natural number, fuel-based so that it is structural
(the fuel `n+1` always suffices since the value shrinks by `/10` each step). -/
def natDigitsF : Nat → Nat → List Char → List Char
  | 0, _, acc => acc
  | fuel + 1, n, acc =>
    if n < 10 then digitChar n :: acc
    else natDigitsF fuel (n / 10) (digitChar (n % 10) :: acc)

/-- Decimal digit string of a natural number (semantics of Python's
`str`/`format` rendering of a nonnegative integer). -/
def natDigits (n : Nat) : List Char := natDigitsF (n + 1) n []

/-- Decimal rendering of an integer, sign included (Python `str(int)`). -/
def intStr (m : Int) : List Char :=
  if m < 0 then '-' :: natDigits m.natAbs else natDigits m.natAbs

/-! ### `normalize_slug` (`src/app.py:44-48`) -/

/-- `(s or "").strip()`: drop leading and trailing whitespace. -/
def stripWS (l : List Char) : List Char :=
  ((l.dropWhile isWS).reverse.dropWhile isWS).reverse

/-- `re.sub(r"[^a-z0-9]+", "-", s)`: each maximal run of characters outside
`[a-z0-9]` becomes a single `'-'`.  The boolean flag records whether we are
currently inside such a run (making the recursion structural). -/
def subNA (inRun : Bool) : List Char → List Char
  | [] => []
  | c :: t =>
    if lowAlnum c then c :: subNA false t
    else if inRun then subNA true t
    else '-' :: subNA true t

/-- `re.sub(r"-{2,}", "-", s)`: collapse every run of two or more hyphens to
a single hyphen (a run of one hyphen is left alone, which the flag-based
recursion below reproduces: every maximal hyphen run contributes exactly one
`'-'`). -/
def collapseHy (inRun : Bool) : List Char → List Char
  | [] => []
  | c :: t =>
    if c = '-' then
      (if inRun then collapseHy true t else '-' :: collapseHy true t)
    else c :: collapseHy false t

/-- `.strip("-")`: drop leading and trailing hyphens. -/
def stripHy (l : List Char) : List Char :=
  ((l.dropWhile (fun c => c = '-')).reverse.dropWhile (fun c => c = '-')).reverse

/-- `normalize_slug` (`src/app.py:44-48`).  Python's `str.lower()` is
Unicode-aware; `Char.toLower` lowers the ASCII letters, which agrees with
Python on ASCII input, and every non-ASCII character is collapsed to `'-'`
by the `[^a-z0-9]+` substitution either way. -/
def normalize_slug (s : List Char) : List Char :=
  stripHy (collapseHy false (subNA false ((stripWS s).map Char.toLower)))

/-! ### The lexical array extractor `extract_js_array` (`src/app.py:51-83`) -/

/-- The scanner state of `extract_js_array`: bracket depth, the
inside-a-string flag with the quote character that opened the string, and
the escape-pending flag.  Python initialises `string_delim` to `""`; the
field is only consulted while `in_string = true` and is always assigned on
entering a string, so the initial value is irrelevant. -/
structure ScanSt where
  depth : Int
  in_string : Bool
  string_delim : Char
  escaped : Bool
deriving DecidableEq

def scanInit : ScanSt := { depth := 0, in_string := false, string_delim := '"', escaped := false }

/-- One iteration of the scanner loop body (`src/app.py:63-81`), without the
early `return`: the state update applied to each character. -/
def stepState (st : ScanSt) (ch : Char) : ScanSt :=
  if st.in_string then
    if st.escaped then { st with escaped := false }
    else if ch = '\\' then { st with escaped := true }
    else if ch = st.string_delim then { st with in_string := false }
    else st
  else
    if ch = '\'' ∨ ch = '"' then { st with in_string := true, string_delim := ch }
    else if ch = '[' then { st with depth := st.depth + 1 }
    else if ch = ']' then { st with depth := st.depth - 1 }
    else st

/-- The early-return condition of the loop (`src/app.py:77-80`): a `']'`
seen outside a string when the depth is about to return to zero. -/
def stops (st : ScanSt) (ch : Char) : Bool :=
  !st.in_string && ch = ']' && st.depth = 1

/-- Run the scanner over a suffix of the text; returns the relative index of
the closing bracket at which the loop returns, or `none` if the text is
exhausted first. -/
def scanAux (st : ScanSt) : List Char → Option Nat
  | [] => none
  | ch :: t => if stops st ch then some 0 else (scanAux (stepState st ch) t).map (· + 1)

/-- The scanner state after processing a list of characters. -/
def iterState (st : ScanSt) (l : List Char) : ScanSt := l.foldl stepState st

/-- Bracket depth of the scanner after the first `k` characters of `l`
(string-literal content accounted for, exactly as the loop counts it). -/
def depthAt (l : List Char) (k : Nat) : Int := (iterState scanInit (l.take k)).depth

/-- Failure modes of `extract_js_array`: Python's `IndexError` from
`text[start_bracket_idx]` on an out-of-range index, and the two
`ValueError`s raised at `src/app.py:54` and `src/app.py:83`. -/
inductive ExtractErr where
  | indexOutOfRange
  | invalidStart
  | unterminatedArray
deriving DecidableEq

/-- `extract_js_array` (`src/app.py:51-83`).  Python evaluates
`text[start_bracket_idx]` before anything else, so an out-of-range start
raises `IndexError` rather than either `ValueError`. -/
def extract_js_array (text : List Char) (start : Nat) : Except ExtractErr (List Char) :=
  if h : start < text.length then
    if text.get ⟨start, h⟩ = '[' then
      match scanAux scanInit (text.drop start) with
      | some j => Except.ok ((text.drop start).take (j + 1))
      | none => Except.error ExtractErr.unterminatedArray
    else Except.error ExtractErr.invalidStart
  else Except.error ExtractErr.indexOutOfRange

/-! ### The anchor locator `extract_array_for_key` (`src/app.py:86-97`) -/

/-- `hay.find(needle)`: index of the first occurrence of `needle` as a
contiguous substring of `hay`, or `none` (Python returns `-1`). -/
def findSub (needle : List Char) : List Char → Option Nat
  | [] => if needle.isEmpty then some 0 else none
  | c :: t =>
    if needle.isPrefixOf (c :: t) then some 0
    else (findSub needle t).map (· + 1)

/-- `needle` occurs as a contiguous substring of `hay` at index `i`. -/
def occursAt (needle hay : List Char) (i : Nat) : Prop :=
  needle.isPrefixOf (hay.drop i) = true

instance (needle hay : List Char) (i : Nat) : Decidable (occursAt needle hay i) := by
  unfold occursAt; infer_instance

/-- `hay.find(c, start)` / `re.search` of a single character in `hay[start:]`
with the match offset shifted back to an absolute index
(`src/app.py:90,93,96`). -/
def findCharFrom (hay : List Char) (c : Char) (start : Nat) : Option Nat :=
  (findSub [c] (hay.drop start)).map (· + start)

/-- `extract_array_for_key` (`src/app.py:86-97`): first occurrence of the
key, then the next `':'` from there, then the next `'['` from the colon
(the regex searches `html[colon:]`, so from the colon position inclusive —
the colon itself is never `'['`); any exception of the extractor
propagates. -/
def extract_array_for_key (html key : List Char) : Except ExtractErr (Option (List Char)) :=
  match findSub key html with
  | none => Except.ok none
  | some pos =>
    match findCharFrom html ':' pos with
    | none => Except.ok none
    | some colon =>
      match findCharFrom html '[' colon with
      | none => Except.ok none
      | some b => (extract_js_array html b).map Option.some

/-! ### Price formatting and cleaning (`src/app.py:100-113`) -/

/-- Python `int()` on a decoded numeric value: truncation toward zero.
`Rat` stores `num/den` with `den > 0`, so truncating division of the
numerator by the denominator is exactly Python's `int(n)`. -/
def pyIntOfRat (q : Rat) : Int := q.num.tdiv q.den

/-- Insert a `','` after every three characters, counting from the start;
applied to the reversed digit string this is the thousands grouping of
Python's `f"{m:,}"`. -/
def chunk3 : List Char → List Char
  | a :: b :: c :: d :: t => a :: b :: c :: ',' :: chunk3 (d :: t)
  | l => l

/-- `f"{m:,}"` for an integer `m`: sign, then digits in groups of three
separated by commas. -/
def commaFormat (m : Int) : List Char :=
  (if m < 0 then ['-'] else []) ++ (chunk3 (natDigits m.natAbs).reverse).reverse

/-- `rupee` (`src/app.py:100-106`) on a decoded numeric-or-null price.
For a rational (finite numeric) argument Python's `int(n)` always
succeeds, so the `except` branch returning `str(n)` is unreachable on
this domain. -/
def rupee (n : Option Rat) : Option (List Char) :=
  n.map (fun q => '₹' :: commaFormat (pyIntOfRat q))

/-- `clean_price_to_int` (`src/app.py:109-113`).  `re.sub(r"[^\d]", "", s)`
keeps the decimal digits; Python's `\d` also matches non-ASCII decimal
digits, which do not occur in this program's `rupee`-formatted price
strings, so ASCII `Char.isDigit` is the faithful class here. -/
def clean_price_to_int (price : Option (List Char)) : Nat :=
  match price with
  | none => 10 ^ 12
  | some s =>
    if s = [] then 10 ^ 12
    else
      let ds := s.filter Char.isDigit
      if ds = [] then 10 ^ 12 else digitsVal ds

/-! ### Merchant inference `domain_to_merchant` (`src/app.py:28-39,116-121`) -/

/-- Characters permitted in a URL scheme (`urllib.parse.scheme_chars`):
ASCII letters, digits, `'+'`, `'-'`, `'.'`. -/
def schemeChar (c : Char) : Bool :=
  c.isAlpha || c.isDigit || decide (c = '+' ∨ c = '-' ∨ c = '.')

/-- The scheme-splitting step of `urllib.parse.urlsplit`: if the text up to
the first `':'` is a nonempty run of scheme characters starting with an
ASCII letter, the scheme and the colon are removed. -/
def splitSchemeRest (url : List Char) : List Char :=
  match findSub [':'] url with
  | none => url
  | some i =>
    if decide (0 < i) && (url.take i).all schemeChar &&
        (match url.head? with | some c => c.isAlpha | none => false) then
      url.drop (i + 1)
    else url

/-- `urlparse(url).netloc`: after the scheme, a leading `"//"` introduces
the network location, which extends to the next `'/'`, `'?'` or `'#'`.
(The bracket-validation that CPython performs on IPv6 hosts is omitted:
it only raises on hosts containing `[` or `]`, which none of the claims
concern.) -/
def netlocOf (url : List Char) : List Char :=
  let rest := splitSchemeRest url
  if ['/', '/'].isPrefixOf rest then
    (rest.drop 2).takeWhile (fun c => !(c = '/' || c = '?' || c = '#'))
  else []

/-- Python `domain.replace("www.", "")`: remove every occurrence of the
four-character substring `"www."`, scanning left to right without overlap. -/
def replaceWWW : List Char → List Char
  | 'w' :: 'w' :: 'w' :: '.' :: t => replaceWWW t
  | c :: t => c :: replaceWWW t
  | [] => []

/-- Strip one leading `"www."` only.  This follows the SPEC's words
("host with leading www. stripped"); the code's `str.replace` removes all
occurrences.  Used to compare the claim's reading with the code. -/
def stripLeadingWWW (l : List Char) : List Char :=
  if ['w', 'w', 'w', '.'].isPrefixOf l then l.drop 4 else l

/-- Python `str.capitalize()`: first character upper-cased, the rest
lower-cased (ASCII fragment, the hosts here being ASCII). -/
def capitalizePy : List Char → List Char
  | [] => []
  | c :: t => c.toUpper :: t.map Char.toLower

/-- `DOMAIN_MAP` (`src/app.py:28-39`). -/
def DOMAIN_MAP : List (List Char × List Char) :=
  [("amazon.in".toList, "Amazon".toList),
   ("flipkart.com".toList, "Flipkart".toList),
   ("croma.com".toList, "Croma".toList),
   ("jiomart.com".toList, "JioMart".toList),
   ("reliancedigital.in".toList, "Reliance Digital".toList),
   ("vijaysales.com".toList, "Vijay Sales".toList),
   ("apple.com".toList, "Apple Store".toList),
   ("bigbasket.com".toList, "BigBasket".toList),
   ("shopsy.in".toList, "Shopsy".toList),
   ("paiinternational.in".toList, "Pai International".toList)]

/-- `domain_to_merchant` (`src/app.py:116-121`). -/
def domain_to_merchant (url : List Char) (fallback : List Char) : List Char :=
  if url = [] then fallback
  else
    let domain := replaceWWW ((netlocOf url).map Char.toLower)
    match (DOMAIN_MAP.find? (fun kv => kv.fst == domain)).map Prod.snd with
    | some name => name
    | none => capitalizePy (domain.takeWhile (fun c => !(c = '.')))

/-- Merchant inference as the claim states it: host with only a LEADING
`"www."` stripped.  Written from the spec's words, for comparison with
`domain_to_merchant`. -/
def domain_to_merchant_spec (url : List Char) (fallback : List Char) : List Char :=
  if url = [] then fallback
  else
    let domain := stripLeadingWWW ((netlocOf url).map Char.toLower)
    match (DOMAIN_MAP.find? (fun kv => kv.fst == domain)).map Prod.snd with
    | some name => name
    | none => capitalizePy (domain.takeWhile (fun c => !(c = '.')))

/-! ### The search projection (`src/app.py:140-156`) -/

/-- A decoded search record: the fields `scrape_buyhatke_search` reads via
`p.get(...)`, each possibly absent.  Positions and internal ids are the
numeric values the page embeds. -/
structure SearchRec where
  prod : Option (List Char)
  prodSearch : Option (List Char)
  price : Option Int
  pos : Option Int
  internalPid : Option Int
deriving DecidableEq

structure SearchHit where
  title : Option (List Char)
  price : Option Int
  redirect_url : List Char
deriving DecidableEq

/-- Python `a or b` for an optional string `a`: `b` when `a` is `None` OR
the empty string (both falsy). -/
def pyOrStr (a : Option (List Char)) (b : List Char) : List Char :=
  match a with
  | none => b
  | some s => if s = [] then b else s

/-- Python f-string interpolation of an optional integer: `None` prints as
`"None"`. -/
def pyStrInt (o : Option Int) : List Char :=
  match o with
  | none => "None".toList
  | some n => intStr n

/-- The loop body of `scrape_buyhatke_search` (`src/app.py:141-155`). -/
def search_hit_of (p : SearchRec) : SearchHit :=
  { title := p.prod
    price := p.price
    redirect_url :=
      "https://buyhatke.com/".toList ++ normalize_slug (pyOrStr p.prodSearch (pyOrStr p.prod []))
        ++ "-price-in-india-".toList ++ pyStrInt p.pos ++ ['-'] ++ pyStrInt p.internalPid }

/-- The search projection: one `SearchHit` per decoded record, in order. -/
def search_projection (ps : List SearchRec) : List SearchHit :=
  ps.map search_hit_of

/-- The projection as the claim reads it: the slug falls back to `prod`
only when `prodSearch` is ABSENT (the code's `or` also falls back on a
present-but-empty `prodSearch`).  Written from the claim's words, for
comparison with `search_hit_of`. -/
def search_hit_claim (p : SearchRec) : SearchHit :=
  { title := p.prod
    price := p.price
    redirect_url :=
      "https://buyhatke.com/".toList ++
          normalize_slug (match p.prodSearch with
            | some s => s
            | none => pyOrStr p.prod [])
        ++ "-price-in-india-".toList ++ pyStrInt p.pos ++ ['-'] ++ pyStrInt p.internalPid }

/-! ### The offer projection (`src/app.py:159-210`) and cheapest offer
    (`src/app.py:255`) -/

/-- A decoded deal record: the fields the offer loop reads
(`src/app.py:194-206`). -/
structure DealRec where
  price : Option Rat
  link : Option (List Char)
  prod : Option (List Char)
deriving DecidableEq

structure Offer where
  merchant : List Char
  product : Option (List Char)
  price : Option (List Char)
  url : Option (List Char)
deriving DecidableEq

/-- The loop body at `src/app.py:194-206`.  `domain_to_merchant` first
tests `if not url`, which is true for both `None` and `""`, so a missing
link is passed as the empty text. -/
def offer_of (item : DealRec) : Offer :=
  { merchant := domain_to_merchant (item.link.getD []) ("Unknown".toList)
    product := item.prod
    price := rupee item.price
    url := item.link }

/-- The offer projection: one `Offer` per decoded deal record, in order. -/
def offers_projection (deals : List DealRec) : List Offer :=
  deals.map offer_of

/-- The sort key of `main`'s cheapest-offer selection (`src/app.py:255`). -/
def offerKey (o : Offer) : Nat := clean_price_to_int o.price

/-- Python's `min(iterable, key=f)` fold: the running best is replaced only
on a strictly smaller key, so the first minimum wins ties. -/
def pyMinGo (f : α → Nat) (best : α) : List α → α
  | [] => best
  | x :: t => pyMinGo f (if f x < f best then x else best) t

def pyMinBy (f : α → Nat) : List α → Option α
  | [] => none
  | x :: t => some (pyMinGo f x t)

/-- `min(offers, key=lambda x: clean_price_to_int(x["price"]))`
(`src/app.py:255`). -/
def cheapest_offer (offers : List Offer) : Option Offer :=
  pyMinBy offerKey offers

/-! ### Shape of a slug (for the slug claims) -/

/-- The tail of a well-formed slug: alphanumeric characters and single
hyphens, where a hyphen must be followed by an alphanumeric character
(so no `"--"` and no trailing hyphen). -/
def goodTail : List Char → Bool
  | [] => true
  | c :: t =>
    if c = '-' then
      match t with
      | [] => false
      | d :: t2 => lowAlnum d && goodTail t2
    else lowAlnum c && goodTail t

/-- A well-formed slug: empty, or starting with an alphanumeric character
followed by a `goodTail` — equivalently, lowercase alphanumeric runs
joined by single hyphens with no leading or trailing hyphen. -/
def goodSlug : List Char → Bool
  | [] => true
  | c :: t => lowAlnum c && goodTail t

/-- No two adjacent hyphens. -/
def noDD : List Char → Bool
  | c :: d :: t => !(c = '-' && d = '-') && noDD (d :: t)
  | _ => true

/-! ## Lemmas about the scanner -/

theorem iterState_nil (st : ScanSt) : iterState st [] = st := rfl

theorem iterState_cons (st : ScanSt) (ch : Char) (t : List Char) :
    iterState st (ch :: t) = iterState (stepState st ch) t := rfl

theorem stepState_in_string_depth (st : ScanSt) (ch : Char) (h : st.in_string = true) :
    (stepState st ch).depth = st.depth := by
  simp only [stepState, h]
  split_ifs <;> rfl

theorem stops_iff (st : ScanSt) (ch : Char) :
    stops st ch = true ↔ st.in_string = false ∧ ch = ']' ∧ st.depth = 1 := by
  simp [stops, and_assoc]

theorem stepState_depth_of_stops (st : ScanSt) (ch : Char) (h : stops st ch = true) :
    (stepState st ch).depth = 0 := by
  rw [stops_iff] at h
  obtain ⟨h1, h2, h3⟩ := h
  simp [stepState, h1, h2, h3]

theorem stepState_depth_pos (st : ScanSt) (ch : Char) (h1 : 1 ≤ st.depth)
    (h2 : stops st ch = false) : 1 ≤ (stepState st ch).depth := by
  by_cases hs : st.in_string = true
  · rw [stepState_in_string_depth st ch hs]; exact h1
  · have hs' : st.in_string = false := by simpa using hs
    have hnot : ¬(ch = ']' ∧ st.depth = 1) := by
      rintro ⟨hc, hd⟩
      rw [(stops_iff st ch).mpr ⟨hs', hc, hd⟩] at h2
      cases h2
    simp only [stepState, hs']
    simp only [Bool.false_eq_true, if_false]
    split_ifs with hq hb hc
    · exact h1
    · show (1 : Int) ≤ st.depth + 1
      omega
    · show (1 : Int) ≤ st.depth - 1
      have hd : st.depth ≠ 1 := fun hd => hnot ⟨hc, hd⟩
      omega
    · exact h1

theorem scanAux_cons (st : ScanSt) (ch : Char) (t : List Char) :
    scanAux st (ch :: t) =
      if stops st ch then some 0 else (scanAux (stepState st ch) t).map (· + 1) := rfl

theorem iterState_append (st : ScanSt) (u v : List Char) :
    iterState st (u ++ v) = iterState (iterState st u) v := List.foldl_append ..

/-- If the scan of `l` from a state of positive depth returns at relative
index `j`, then the depth is zero right after the returned character and
nonzero after every shorter prefix. -/
theorem scanAux_some_spec (l : List Char) : ∀ (st : ScanSt) (j : Nat), 1 ≤ st.depth →
    scanAux st l = some j →
    (iterState st (l.take (j + 1))).depth = 0 ∧
      ∀ k, k ≤ j → (iterState st (l.take k)).depth ≠ 0 := by
  induction l with
  | nil => intro st j h hs; simp [scanAux] at hs
  | cons ch t ih =>
    intro st j h hs
    rw [scanAux_cons] at hs
    by_cases hstop : stops st ch = true
    · rw [if_pos hstop, Option.some.injEq] at hs
      subst hs
      refine ⟨?_, ?_⟩
      · show (iterState st ((ch :: t).take 1)).depth = 0
        have h1 : (ch :: t).take 1 = [ch] := rfl
        rw [h1]
        show (stepState st ch).depth = 0
        exact stepState_depth_of_stops st ch hstop
      · intro k hk
        have hk0 : k = 0 := Nat.le_zero.mp hk
        subst hk0
        show st.depth ≠ 0
        omega
    · rw [if_neg hstop] at hs
      have hstop' : stops st ch = false := by simpa using hstop
      cases hsc : scanAux (stepState st ch) t with
      | none => rw [hsc] at hs; simp at hs
      | some j2 =>
        rw [hsc] at hs
        simp only [Option.map_some'] at hs
        injection hs with hj
        subst hj
        have hd := stepState_depth_pos st ch h hstop'
        obtain ⟨ha, hb⟩ := ih (stepState st ch) j2 hd hsc
        refine ⟨?_, ?_⟩
        · rw [List.take_succ_cons, iterState_cons]
          exact ha
        · intro k hk
          cases k with
          | zero => show st.depth ≠ 0; omega
          | succ k2 =>
            rw [List.take_succ_cons, iterState_cons]
            exact hb k2 (by omega)

/-- If the scan of `l` from a state of positive depth exhausts the text,
the depth never returns to zero along `l`. -/
theorem scanAux_none_spec (l : List Char) : ∀ (st : ScanSt), 1 ≤ st.depth →
    scanAux st l = none → ∀ k, (iterState st (l.take k)).depth ≠ 0 := by
  induction l with
  | nil =>
    intro st h _ k
    rw [List.take_nil, iterState_nil]
    omega
  | cons ch t ih =>
    intro st h hs k
    rw [scanAux_cons] at hs
    by_cases hstop : stops st ch = true
    · rw [if_pos hstop] at hs; cases hs
    · rw [if_neg hstop] at hs
      have hstop' : stops st ch = false := by simpa using hstop
      have hd := stepState_depth_pos st ch h hstop'
      have ht : scanAux (stepState st ch) t = none := by
        cases hsc : scanAux (stepState st ch) t with
        | none => rfl
        | some j2 => rw [hsc] at hs; simp at hs
      cases k with
      | zero => show st.depth ≠ 0; omega
      | succ k2 =>
        rw [List.take_succ_cons, iterState_cons]
        exact ih (stepState st ch) hd ht k2

/-- If the depth returns to zero after some prefix of `l`, the scan stops,
and it stops strictly before that prefix ends. -/
theorem scanAux_exists_of_depth_zero (l : List Char) : ∀ (st : ScanSt) (n : Nat),
    1 ≤ st.depth → (iterState st (l.take n)).depth = 0 →
    ∃ j, scanAux st l = some j ∧ j < n := by
  induction l with
  | nil =>
    intro st n h h0
    rw [List.take_nil, iterState_nil] at h0
    omega
  | cons ch t ih =>
    intro st n h h0
    cases n with
    | zero =>
      rw [List.take_zero, iterState_nil] at h0
      omega
    | succ m =>
      rw [List.take_succ_cons, iterState_cons] at h0
      by_cases hstop : stops st ch = true
      · exact ⟨0, by rw [scanAux_cons, if_pos hstop], by omega⟩
      · have hstop' : stops st ch = false := by simpa using hstop
        have hd := stepState_depth_pos st ch h hstop'
        obtain ⟨j, hj, hjn⟩ := ih (stepState st ch) m hd h0
        exact ⟨j + 1, by rw [scanAux_cons, if_neg hstop, hj]; rfl, by omega⟩

theorem scanAux_some_lt (l : List Char) : ∀ (st : ScanSt) (j : Nat),
    scanAux st l = some j → j < l.length := by
  induction l with
  | nil => intro st j hs; simp [scanAux] at hs
  | cons ch t ih =>
    intro st j hs
    rw [scanAux_cons] at hs
    by_cases hstop : stops st ch = true
    · rw [if_pos hstop, Option.some.injEq] at hs
      subst hs
      simp
    · rw [if_neg hstop] at hs
      cases hsc : scanAux (stepState st ch) t with
      | none => rw [hsc] at hs; simp at hs
      | some j2 =>
        rw [hsc] at hs
        simp only [Option.map_some'] at hs
        injection hs with hj
        subst hj
        have := ih (stepState st ch) j2 hsc
        simp
        omega

/-- The character at which the scan stops is a closing bracket. -/
theorem scanAux_some_char (l : List Char) : ∀ (st : ScanSt) (j : Nat),
    scanAux st l = some j → l.get? j = some ']' := by
  induction l with
  | nil => intro st j hs; simp [scanAux] at hs
  | cons ch t ih =>
    intro st j hs
    rw [scanAux_cons] at hs
    by_cases hstop : stops st ch = true
    · rw [if_pos hstop, Option.some.injEq] at hs
      subst hs
      rw [stops_iff] at hstop
      simp [hstop.2.1]
    · rw [if_neg hstop] at hs
      cases hsc : scanAux (stepState st ch) t with
      | none => rw [hsc] at hs; simp at hs
      | some j2 =>
        rw [hsc] at hs
        simp only [Option.map_some'] at hs
        injection hs with hj
        subst hj
        exact ih (stepState st ch) j2 hsc

/-- Scanning `u ++ v` when `u` alone exhausts without stopping: the scan
continues through `v` from the state reached at the end of `u`. -/
theorem scanAux_append_none (u : List Char) : ∀ (st : ScanSt) (v : List Char),
    scanAux st u = none →
    scanAux st (u ++ v) = (scanAux (iterState st u) v).map (· + u.length) := by
  induction u with
  | nil =>
    intro st v _
    rw [List.nil_append, iterState_nil]
    cases scanAux st v <;> simp
  | cons ch t ih =>
    intro st v hu
    rw [scanAux_cons] at hu
    by_cases hstop : stops st ch = true
    · rw [if_pos hstop] at hu; cases hu
    · rw [if_neg hstop] at hu
      have ht : scanAux (stepState st ch) t = none := by
        cases hsc : scanAux (stepState st ch) t with
        | none => rfl
        | some j2 => rw [hsc] at hu; simp at hu
      rw [List.cons_append, scanAux_cons, if_neg hstop, ih (stepState st ch) v ht,
        iterState_cons]
      cases scanAux (iterState (stepState st ch) t) v with
      | none => simp
      | some m =>
        simp only [Option.map_some', List.length_cons, Option.some.injEq]
        omega

/-- If the scan over `u ++ v` stops at or after the end of `u`, then `u`
alone exhausts without stopping. -/
theorem scanAux_append_some_ge (u : List Char) : ∀ (st : ScanSt) (v : List Char) (j : Nat),
    scanAux st (u ++ v) = some j → u.length ≤ j → scanAux st u = none := by
  induction u with
  | nil => intro st v j _ _; rfl
  | cons ch t ih =>
    intro st v j hs hj
    rw [List.cons_append, scanAux_cons] at hs
    by_cases hstop : stops st ch = true
    · rw [if_pos hstop, Option.some.injEq] at hs
      rw [List.length_cons] at hj
      omega
    · rw [if_neg hstop] at hs
      rw [scanAux_cons, if_neg hstop]
      cases hsc : scanAux (stepState st ch) (t ++ v) with
      | none => rw [hsc] at hs; simp at hs
      | some j2 =>
        rw [hsc] at hs
        simp only [Option.map_some'] at hs
        injection hs with hj2
        rw [List.length_cons] at hj
        rw [ih (stepState st ch) v j2 hsc (by omega)]
        rfl

/-- Processing a backslash-escaped character while inside a string (escape
not pending) returns the scanner to exactly the state it was in; hence the
scan of the remainder is unchanged, shifted by the two inserted
characters. -/
theorem scanAux_insert_escaped (st : ScanSt) (q : Char) (l : List Char)
    (h1 : st.in_string = true) (h2 : st.escaped = false) :
    scanAux st ('\\' :: q :: l) = (scanAux st l).map (· + 2) := by
  have hns1 : stops st '\\' = false := by simp [stops, h1]
  have hst1 : stepState st '\\' = { st with escaped := true } := by
    simp [stepState, h1, h2]
  have hns2 : stops { st with escaped := true } q = false := by simp [stops, h1]
  have hst2 : stepState { st with escaped := true } q = st := by
    cases st
    simp_all [stepState]
  rw [scanAux_cons, if_neg (by simp [hns1]), hst1, scanAux_cons, if_neg (by simp [hns2]), hst2]
  cases scanAux st l with
  | none => simp
  | some m =>
    simp only [Option.map_some', Option.some.injEq]

theorem drop_eq_bracket_cons (text : List Char) (start : Nat) (hs : start < text.length)
    (hb : text.get ⟨start, hs⟩ = '[') :
    text.drop start = '[' :: text.drop (start + 1) := by
  rw [List.drop_eq_getElem_cons hs]
  rw [List.get_eq_getElem] at hb
  rw [hb]

theorem depthAt_bracket_cons (t : List Char) (k : Nat) :
    depthAt ('[' :: t) (k + 1) = (iterState (stepState scanInit '[') (t.take k)).depth := by
  simp [depthAt, List.take_succ_cons, iterState_cons]

theorem scanAux_bracket_cons (t : List Char) :
    scanAux scanInit ('[' :: t) = (scanAux (stepState scanInit '[') t).map (· + 1) := by
  rw [scanAux_cons, if_neg (by decide)]

theorem stepState_bracket_depth : (stepState scanInit '[').depth = 1 := by decide

/-- C10: with a start index at or beyond the end of the text, the
precondition check `text[start_bracket_idx] != "["` itself indexes out of
range, so the function fails with the index error, not `InvalidStart` or
`UnterminatedArray`. -/
theorem extract_js_array_out_of_range_start (text : List Char) (start : Nat)
    (h : text.length ≤ start) :
    extract_js_array text start = Except.error ExtractErr.indexOutOfRange := by
  unfold extract_js_array
  rw [dif_neg (by omega)]

theorem extract_js_array_out_of_range_start_witness :
    extract_js_array [] 5 = Except.error ExtractErr.indexOutOfRange :=
  extract_js_array_out_of_range_start [] 5 (by decide)

/-- C1: when the character at `start` is `'['` and some prefix of the
remaining text of length `n ≥ 1` brings the scanner's bracket depth
(string-literal content accounted for) back to zero for the first time at
exactly its final character, `extract_js_array` returns precisely that
prefix — the substring from `start` through the matching `']'`. -/
theorem extract_js_array_returns_minimal_balanced_span (text : List Char) (start n : Nat)
    (hs : start < text.length)
    (hb : text.get ⟨start, hs⟩ = '[')
    (hn : 1 ≤ n) (hlen : n ≤ (text.drop start).length)
    (hzero : depthAt (text.drop start) n = 0)
    (hmin : ∀ k, k < n → 1 ≤ k → depthAt (text.drop start) k ≠ 0) :
    extract_js_array text start = Except.ok ((text.drop start).take n) := by
  have hl : text.drop start = '[' :: text.drop (start + 1) :=
    drop_eq_bracket_cons text start hs hb
  obtain ⟨m, rfl⟩ : ∃ m, n = m + 1 := ⟨n - 1, by omega⟩
  have h1 : (1 : Int) ≤ (stepState scanInit '[').depth := by
    rw [stepState_bracket_depth]
  have hz : (iterState (stepState scanInit '[') ((text.drop (start + 1)).take m)).depth = 0 := by
    rw [← depthAt_bracket_cons, ← hl]
    exact hzero
  obtain ⟨j, hj, hjm⟩ :=
    scanAux_exists_of_depth_zero (text.drop (start + 1)) (stepState scanInit '[') m h1 hz
  obtain ⟨hj0, _⟩ :=
    scanAux_some_spec (text.drop (start + 1)) (stepState scanInit '[') j h1 hj
  have hjm1 : j + 1 = m := by
    by_contra hne
    exact hmin (j + 2) (by omega) (by omega)
      (by rw [hl, depthAt_bracket_cons]; exact hj0)
  have hscan : scanAux scanInit (text.drop start) = some m := by
    rw [hl, scanAux_bracket_cons, hj]
    simp [hjm1]
  unfold extract_js_array
  rw [dif_pos hs, if_pos hb, hscan]

theorem extract_js_array_returns_minimal_balanced_span_witness :
    extract_js_array ("x[1,[2]]y".toList) 1 = Except.ok ("[1,[2]]".toList) := by
  have h := extract_js_array_returns_minimal_balanced_span ("x[1,[2]]y".toList) 1 7
    (by decide) (by decide) (by decide) (by decide) (by decide) (by decide)
  rw [h]
  rfl

theorem getLast?_take_succ (l : List Char) : ∀ (j : Nat), j < l.length →
    (l.take (j + 1)).getLast? = l.get? j := by
  induction l with
  | nil => intro j hj; simp at hj
  | cons c t ih =>
    intro j hj
    cases j with
    | zero => rfl
    | succ j2 =>
      rw [List.take_succ_cons]
      rw [List.length_cons] at hj
      have hj2 : j2 < t.length := by omega
      cases t with
      | nil => simp at hj2
      | cons d t2 =>
        rw [List.take_succ_cons, List.getLast?_cons_cons, ← List.take_succ_cons]
        rw [ih j2 hj2]
        rfl

/-- C3: with an in-range start index, `extract_js_array` fails with
`InvalidStart` exactly on a non-`'['` start character; for a `'['` start it
fails with `UnterminatedArray` precisely when the bracket depth never
returns to zero before the end of the text, any successful result is a
non-empty prefix of the remaining text ending at its closing bracket with
depth zero (never a truncated partial result), and success and
`UnterminatedArray` are the only possible outcomes. -/
theorem extract_js_array_failure_modes (text : List Char) (start : Nat)
    (hs : start < text.length) :
    (text.get ⟨start, hs⟩ ≠ '[' →
      extract_js_array text start = Except.error ExtractErr.invalidStart) ∧
    (text.get ⟨start, hs⟩ = '[' →
      ((extract_js_array text start = Except.error ExtractErr.unterminatedArray ↔
          ∀ k, k ≤ (text.drop start).length → 1 ≤ k → depthAt (text.drop start) k ≠ 0) ∧
       (∀ w, extract_js_array text start = Except.ok w →
          w ≠ [] ∧ w.getLast? = some ']' ∧ depthAt w w.length = 0 ∧
            ∃ rest, text.drop start = w ++ rest) ∧
       ((∃ w, extract_js_array text start = Except.ok w) ∨
          extract_js_array text start = Except.error ExtractErr.unterminatedArray))) := by
  constructor
  · intro hb
    unfold extract_js_array
    rw [dif_pos hs, if_neg hb]
  · intro hb
    have hl : text.drop start = '[' :: text.drop (start + 1) :=
      drop_eq_bracket_cons text start hs hb
    have h1 : (1 : Int) ≤ (stepState scanInit '[').depth := by
      rw [stepState_bracket_depth]
    cases hsc : scanAux scanInit (text.drop start) with
    | none =>
      have herr : extract_js_array text start = Except.error ExtractErr.unterminatedArray := by
        unfold extract_js_array
        rw [dif_pos hs, if_pos hb, hsc]
      have hnone : scanAux (stepState scanInit '[') (text.drop (start + 1)) = none := by
        rw [hl, scanAux_bracket_cons] at hsc
        cases h2 : scanAux (stepState scanInit '[') (text.drop (start + 1)) with
        | none => rfl
        | some j3 => rw [h2] at hsc; simp at hsc
      refine ⟨⟨fun _ k _ hk1 => ?_, fun _ => herr⟩, fun w hw => ?_, Or.inr herr⟩
      · obtain ⟨k2, rfl⟩ : ∃ k2, k = k2 + 1 := ⟨k - 1, by omega⟩
        rw [hl, depthAt_bracket_cons]
        exact scanAux_none_spec (text.drop (start + 1)) (stepState scanInit '[') h1 hnone k2
      · rw [herr] at hw; cases hw
    | some j =>
      have hok : extract_js_array text start = Except.ok ((text.drop start).take (j + 1)) := by
        unfold extract_js_array
        rw [dif_pos hs, if_pos hb, hsc]
      have hjlen : j < (text.drop start).length := scanAux_some_lt _ _ _ hsc
      obtain ⟨j3, hj3, rfl⟩ : ∃ j3, scanAux (stepState scanInit '[') (text.drop (start + 1)) =
          some j3 ∧ j = j3 + 1 := by
        rw [hl, scanAux_bracket_cons] at hsc
        cases h2 : scanAux (stepState scanInit '[') (text.drop (start + 1)) with
        | none => rw [h2] at hsc; simp at hsc
        | some j3 =>
          rw [h2] at hsc
          simp only [Option.map_some', Option.some.injEq] at hsc
          exact ⟨j3, rfl, hsc.symm⟩
      have hdz : depthAt (text.drop start) (j3 + 1 + 1) = 0 := by
        rw [hl, depthAt_bracket_cons]
        exact (scanAux_some_spec (text.drop (start + 1)) (stepState scanInit '[') j3 h1 hj3).1
      refine ⟨⟨fun h => ?_, fun hall => ?_⟩, fun w hw => ?_, Or.inl ⟨_, hok⟩⟩
      · rw [hok] at h; cases h
      · exact absurd hdz (hall (j3 + 1 + 1) (by omega) (by omega))
      · rw [hok, Except.ok.injEq] at hw
        subst hw
        refine ⟨?_, ?_, ?_, ⟨(text.drop start).drop (j3 + 1 + 1),
          (List.take_append_drop _ _).symm⟩⟩
        · rw [hl, List.take_succ_cons]
          simp
        · rw [getLast?_take_succ (text.drop start) (j3 + 1) hjlen]
          exact scanAux_some_char (text.drop start) scanInit (j3 + 1) hsc
        · have hlen : ((text.drop start).take (j3 + 1 + 1)).length = j3 + 1 + 1 := by
            rw [List.length_take]
            omega
          rw [hlen]
          show (iterState scanInit (((text.drop start).take (j3 + 1 + 1)).take (j3 + 1 + 1))).depth = 0
          rw [List.take_take, min_self]
          exact hdz

theorem extract_js_array_failure_modes_witness :
    extract_js_array ['x'] 0 = Except.error ExtractErr.invalidStart ∧
    extract_js_array ['[', '1'] 0 = Except.error ExtractErr.unterminatedArray :=
  ⟨(extract_js_array_failure_modes ['x'] 0 (by decide)).1 (by decide),
   ((extract_js_array_failure_modes ['[', '1'] 0 (by decide)).2 (by decide)).1.mpr (by decide)⟩

/-- C2: brackets seen while the scanner is inside a string literal leave
the depth count unchanged (first conjunct covers every character, brackets
included); and inserting a backslash-escaped copy of the enclosing
string's own quote character at any point strictly inside the extracted
span at which the scanner is inside that string (escape not pending)
leaves the boundaries of the returned span unchanged: the result is the
same span with exactly the two inserted characters added at the insertion
point. -/
theorem extract_js_array_escaped_delimiter_insertion :
    (∀ (st : ScanSt) (ch : Char), st.in_string = true → (stepState st ch).depth = st.depth) ∧
    (∀ (u v w : List Char),
      u.head? = some '[' →
      (iterState scanInit u).in_string = true →
      (iterState scanInit u).escaped = false →
      extract_js_array (u ++ v) 0 = Except.ok w →
      u.length < w.length →
      extract_js_array (u ++ '\\' :: (iterState scanInit u).string_delim :: v) 0 =
        Except.ok (u ++ '\\' :: (iterState scanInit u).string_delim :: w.drop u.length)) := by
  refine ⟨stepState_in_string_depth, ?_⟩
  intro u v w hhead hin hesc hok hlt
  obtain ⟨u2, rfl⟩ : ∃ u2, u = '[' :: u2 := by
    cases u with
    | nil => cases hhead
    | cons c u2 =>
      rw [List.head?_cons, Option.some.injEq] at hhead
      exact ⟨u2, by rw [hhead]⟩
  set q := (iterState scanInit ('[' :: u2)).string_delim with hq
  -- unpack the successful extraction on the original text
  have hlen0 : 0 < (('[' :: u2) ++ v).length := by simp
  have hget0 : (('[' :: u2) ++ v).get ⟨0, hlen0⟩ = '[' := rfl
  unfold extract_js_array at hok
  rw [dif_pos hlen0, if_pos hget0, List.drop_zero] at hok
  cases hsc : scanAux scanInit (('[' :: u2) ++ v) with
  | none => rw [hsc] at hok; cases hok
  | some j =>
    rw [hsc, Except.ok.injEq] at hok
    have hjlen : j < (('[' :: u2) ++ v).length := scanAux_some_lt _ _ _ hsc
    have hwlen : w.length = j + 1 := by
      rw [← hok, List.length_take]
      omega
    have hule : ('[' :: u2).length ≤ j := by omega
    have hunone : scanAux scanInit ('[' :: u2) = none :=
      scanAux_append_some_ge ('[' :: u2) scanInit v j hsc hule
    obtain ⟨m, hm, hjm⟩ : ∃ m, scanAux (iterState scanInit ('[' :: u2)) v = some m ∧
        j = m + ('[' :: u2).length := by
      rw [scanAux_append_none ('[' :: u2) scanInit v hunone] at hsc
      cases h2 : scanAux (iterState scanInit ('[' :: u2)) v with
      | none => rw [h2] at hsc; simp at hsc
      | some m =>
        rw [h2] at hsc
        simp only [Option.map_some', Option.some.injEq] at hsc
        exact ⟨m, rfl, hsc.symm⟩
    -- the scan of the modified remainder
    have hins : scanAux (iterState scanInit ('[' :: u2)) ('\\' :: q :: v) = some (m + 2) := by
      rw [scanAux_insert_escaped (iterState scanInit ('[' :: u2)) q v hin hesc, hm]
      rfl
    have hscan2 : scanAux scanInit (('[' :: u2) ++ '\\' :: q :: v) = some (j + 2) := by
      rw [scanAux_append_none ('[' :: u2) scanInit _ hunone, hins]
      simp only [Option.map_some', Option.some.injEq]
      omega
    -- assemble the modified extraction
    have hlen0' : 0 < (('[' :: u2) ++ '\\' :: q :: v).length := by simp
    have hget0' : (('[' :: u2) ++ '\\' :: q :: v).get ⟨0, hlen0'⟩ = '[' := rfl
    have hwdrop : w.drop ('[' :: u2).length = v.take (m + 1) := by
      rw [← hok, List.take_append_eq_append_take]
      have h2 : ('[' :: u2).take (j + 1) = '[' :: u2 :=
        List.take_of_length_le (by omega)
      rw [h2, List.drop_left]
      congr 1
      omega
    unfold extract_js_array
    rw [dif_pos hlen0', if_pos hget0', List.drop_zero, hscan2]
    show Except.ok (List.take (j + 2 + 1) (('[' :: u2) ++ '\\' :: q :: v)) =
      Except.ok (('[' :: u2) ++ '\\' :: q :: w.drop ('[' :: u2).length)
    rw [hwdrop]
    congr 1
    rw [List.take_append_eq_append_take]
    have h3 : ('[' :: u2).take (j + 2 + 1) = '[' :: u2 :=
      List.take_of_length_le (by omega)
    rw [h3]
    congr 1
    have h4 : j + 2 + 1 - ('[' :: u2).length = m + 1 + 2 := by omega
    rw [h4]
    rfl

theorem extract_js_array_escaped_delimiter_insertion_witness :
    (stepState { depth := 2, in_string := true, string_delim := '"', escaped := false } '[').depth
        = 2 ∧
    extract_js_array ['[', '"', 'a', '\\', '"', 'b', '"', ']'] 0 =
      Except.ok ['[', '"', 'a', '\\', '"', 'b', '"', ']'] := by
  constructor
  · exact extract_js_array_escaped_delimiter_insertion.1 _ '[' rfl
  · exact extract_js_array_escaped_delimiter_insertion.2
      ['[', '"', 'a'] ['b', '"', ']'] ['[', '"', 'a', 'b', '"', ']']
      rfl rfl rfl rfl (by decide)

/-! ## Lemmas about `findSub` and the anchor locator -/

theorem occursAt_zero (needle hay : List Char) :
    occursAt needle hay 0 ↔ needle.isPrefixOf hay = true := by
  unfold occursAt
  rw [List.drop_zero]

theorem occursAt_succ_cons (needle : List Char) (c : Char) (t : List Char) (i : Nat) :
    occursAt needle (c :: t) (i + 1) ↔ occursAt needle t i := Iff.rfl

theorem findSub_some_iff (needle : List Char) (hay : List Char) : ∀ (i : Nat),
    findSub needle hay = some i ↔
      occursAt needle hay i ∧ ∀ i2, i2 < i → ¬ occursAt needle hay i2 := by
  induction hay with
  | nil =>
    intro i
    unfold findSub
    by_cases hne : needle.isEmpty = true
    · rw [if_pos hne]
      have hocc : ∀ k, occursAt needle [] k := by
        intro k
        unfold occursAt
        rw [List.drop_nil]
        cases needle with
        | nil => rfl
        | cons a b => simp [List.isEmpty] at hne
      constructor
      · rintro h
        rw [Option.some.injEq] at h
        subst h
        exact ⟨hocc 0, fun i2 h2 => absurd h2 (by omega)⟩
      · rintro ⟨_, hmin⟩
        cases i with
        | zero => rfl
        | succ i2 => exact absurd (hocc 0) (hmin 0 (by omega))
    · rw [if_neg hne]
      have hocc : ∀ k, ¬ occursAt needle [] k := by
        intro k
        unfold occursAt
        rw [List.drop_nil]
        cases needle with
        | nil => simp [List.isEmpty] at hne
        | cons a b => simp [List.isPrefixOf]
      constructor
      · rintro ⟨⟩
      · rintro ⟨h, _⟩
        exact absurd h (hocc i)
  | cons c t ih =>
    intro i
    unfold findSub
    by_cases hp : needle.isPrefixOf (c :: t) = true
    · rw [if_pos hp]
      constructor
      · intro h
        rw [Option.some.injEq] at h
        subst h
        exact ⟨(occursAt_zero needle (c :: t)).mpr hp, fun i2 h2 => absurd h2 (by omega)⟩
      · rintro ⟨_, hmin⟩
        cases i with
        | zero => rfl
        | succ i2 => exact absurd ((occursAt_zero needle (c :: t)).mpr hp) (hmin 0 (by omega))
    · rw [if_neg hp]
      constructor
      · intro h
        cases hf : findSub needle t with
        | none => rw [hf] at h; cases h
        | some i2 =>
          rw [hf] at h
          simp only [Option.map_some', Option.some.injEq] at h
          subst h
          obtain ⟨ho, hm⟩ := (ih i2).mp hf
          refine ⟨ho, ?_⟩
          intro i3 h3
          cases i3 with
          | zero => rw [occursAt_zero]; exact fun hc => hp hc
          | succ i4 => exact hm i4 (by omega)
      · rintro ⟨ho, hmin⟩
        cases i with
        | zero => exact absurd ((occursAt_zero needle (c :: t)).mp ho) hp
        | succ i2 =>
          have := (ih i2).mpr ⟨ho, fun i3 h3 => hmin (i3 + 1) (by omega)⟩
          rw [this]
          rfl

theorem findSub_none_iff (needle : List Char) (hay : List Char) :
    findSub needle hay = none ↔ ∀ i, ¬ occursAt needle hay i := by
  induction hay with
  | nil =>
    unfold findSub
    by_cases hne : needle.isEmpty = true
    · rw [if_pos hne]
      constructor
      · rintro ⟨⟩
      · intro h
        exfalso
        apply h 0
        unfold occursAt
        cases needle with
        | nil => rfl
        | cons a b => simp [List.isEmpty] at hne
    · rw [if_neg hne]
      constructor
      · intro _ i
        unfold occursAt
        rw [List.drop_nil]
        cases needle with
        | nil => simp [List.isEmpty] at hne
        | cons a b => simp [List.isPrefixOf]
      · intro _; rfl
  | cons c t ih =>
    unfold findSub
    by_cases hp : needle.isPrefixOf (c :: t) = true
    · rw [if_pos hp]
      constructor
      · rintro ⟨⟩
      · intro h
        exact absurd ((occursAt_zero needle (c :: t)).mpr hp) (h 0)
    · rw [if_neg hp]
      constructor
      · intro h i
        have ht : findSub needle t = none := by
          cases hf : findSub needle t with
          | none => rfl
          | some i2 => rw [hf] at h; cases h
        cases i with
        | zero => rw [occursAt_zero]; exact fun hc => hp hc
        | succ i2 => exact (ih.mp ht) i2
      · intro h
        have ht : findSub needle t = none := ih.mpr (fun i => h (i + 1))
        rw [ht]
        rfl

theorem isPrefixOf_single (c : Char) (m : List Char) :
    [c].isPrefixOf m = true ↔ m.head? = some c := by
  cases m with
  | nil => simp [List.isPrefixOf]
  | cons b bs =>
    have h1 : [c].isPrefixOf (b :: bs) = (c == b) := by
      cases bs with
      | nil =>
        show (c == b && true) = (c == b)
        rw [Bool.and_true]
      | cons x xs =>
        show (c == b && true) = (c == b)
        rw [Bool.and_true]
    rw [h1, beq_iff_eq, List.head?_cons, Option.some.injEq]
    exact ⟨fun h => h.symm, fun h => h.symm⟩

theorem occursAt_single_iff (c : Char) (hay : List Char) (i : Nat) :
    occursAt [c] hay i ↔ hay.get? i = some c := by
  unfold occursAt
  rw [isPrefixOf_single, List.head?_drop, List.get?_eq_getElem?]

theorem findCharFrom_none_iff (hay : List Char) (c : Char) (start : Nat) :
    findCharFrom hay c start = none ↔ ∀ j, start ≤ j → hay.get? j ≠ some c := by
  unfold findCharFrom
  constructor
  · intro h j hj hc
    have hn : findSub [c] (hay.drop start) = none := by
      cases hf : findSub [c] (hay.drop start) with
      | none => rfl
      | some i => rw [hf] at h; cases h
    apply (findSub_none_iff [c] (hay.drop start)).mp hn (j - start)
    rw [occursAt_single_iff, List.get?_eq_getElem?, List.getElem?_drop,
      show start + (j - start) = j by omega, ← List.get?_eq_getElem?]
    exact hc
  · intro h
    have hn : findSub [c] (hay.drop start) = none := by
      rw [findSub_none_iff]
      intro i
      rw [occursAt_single_iff, List.get?_eq_getElem?, List.getElem?_drop,
        ← List.get?_eq_getElem?]
      exact h (start + i) (by omega)
    rw [hn]
    rfl

theorem findCharFrom_some_iff (hay : List Char) (c : Char) (start colon : Nat) :
    findCharFrom hay c start = some colon ↔
      start ≤ colon ∧ hay.get? colon = some c ∧
        ∀ j, start ≤ j → j < colon → hay.get? j ≠ some c := by
  unfold findCharFrom
  constructor
  · intro h
    obtain ⟨i, hi, rfl⟩ : ∃ i, findSub [c] (hay.drop start) = some i ∧ colon = i + start := by
      cases hf : findSub [c] (hay.drop start) with
      | none => rw [hf] at h; cases h
      | some i =>
        rw [hf] at h
        simp only [Option.map_some', Option.some.injEq] at h
        exact ⟨i, rfl, h.symm⟩
    obtain ⟨ho, hmin⟩ := (findSub_some_iff [c] (hay.drop start) i).mp hi
    rw [occursAt_single_iff, List.get?_eq_getElem?, List.getElem?_drop] at ho
    refine ⟨by omega, ?_, ?_⟩
    · rw [List.get?_eq_getElem?, show i + start = start + i by omega]
      exact ho
    · intro j hj1 hj2 hc
      apply hmin (j - start) (by omega)
      rw [occursAt_single_iff, List.get?_eq_getElem?, List.getElem?_drop,
        show start + (j - start) = j by omega, ← List.get?_eq_getElem?]
      exact hc
  · rintro ⟨h1, h2, h3⟩
    have hf : findSub [c] (hay.drop start) = some (colon - start) := by
      rw [findSub_some_iff]
      constructor
      · rw [occursAt_single_iff, List.get?_eq_getElem?, List.getElem?_drop,
          show start + (colon - start) = colon by omega, ← List.get?_eq_getElem?]
        exact h2
      · intro i2 hi2
        rw [occursAt_single_iff, List.get?_eq_getElem?, List.getElem?_drop,
          ← List.get?_eq_getElem?]
        exact h3 (start + i2) (by omega) (by omega)
    rw [hf]
    simp only [Option.map_some', Option.some.injEq]
    omega

theorem extract_array_for_key_of_absent (html key : List Char)
    (h : findSub key html = none) : extract_array_for_key html key = Except.ok none := by
  unfold extract_array_for_key
  rw [h]

theorem extract_array_for_key_of_found (html key : List Char) (pos : Nat)
    (h : findSub key html = some pos) :
    extract_array_for_key html key =
      (match findCharFrom html ':' pos with
       | none => Except.ok none
       | some colon =>
         match findCharFrom html '[' colon with
         | none => Except.ok none
         | some b => (extract_js_array html b).map Option.some) := by
  unfold extract_array_for_key
  rw [h]

/-- C4: the anchor locator returns an absent result (`ok none`, no
exception) when the key never occurs, when no `':'` occurs at or after the
key's first occurrence, or when no `'['` occurs at or after that first
colon; otherwise it invokes `extract_js_array` at the first `'['` and
returns its result (first match throughout). -/
theorem extract_array_for_key_cases (html key : List Char) :
    ((∀ i, i ≤ html.length → ¬ occursAt key html i) →
        extract_array_for_key html key = Except.ok none) ∧
    (∀ pos, occursAt key html pos → (∀ i, i < pos → ¬ occursAt key html i) →
      (((∀ j, j < html.length → pos ≤ j → html.get? j ≠ some ':') →
          extract_array_for_key html key = Except.ok none) ∧
       (∀ colon, pos ≤ colon → html.get? colon = some ':' →
          (∀ j, j < colon → pos ≤ j → html.get? j ≠ some ':') →
          (((∀ j, j < html.length → colon ≤ j → html.get? j ≠ some '[') →
              extract_array_for_key html key = Except.ok none) ∧
           (∀ b, colon ≤ b → html.get? b = some '[' →
              (∀ j, j < b → colon ≤ j → html.get? j ≠ some '[') →
              extract_array_for_key html key = (extract_js_array html b).map Option.some))))) := by
  constructor
  · intro h
    apply extract_array_for_key_of_absent
    rw [findSub_none_iff]
    intro i
    by_cases hi : i ≤ html.length
    · exact h i hi
    · intro hc
      unfold occursAt at hc
      rw [List.drop_of_length_le (by omega)] at hc
      cases key with
      | nil =>
        apply h 0 (by omega)
        unfold occursAt
        rw [List.drop_zero]
        cases html <;> rfl
      | cons a b => cases hc
  · intro pos hocc hmin
    have hfind : findSub key html = some pos :=
      (findSub_some_iff key html pos).mpr ⟨hocc, hmin⟩
    constructor
    · intro h
      have hc : findCharFrom html ':' pos = none := by
        rw [findCharFrom_none_iff]
        intro j hj hget
        by_cases hjl : j < html.length
        · exact h j hjl hj hget
        · rw [List.get?_eq_getElem?, List.getElem?_eq_none (by omega)] at hget
          cases hget
      rw [extract_array_for_key_of_found html key pos hfind, hc]
    · intro colon hc1 hc2 hc3
      have hcol : findCharFrom html ':' pos = some colon :=
        (findCharFrom_some_iff html ':' pos colon).mpr
          ⟨hc1, hc2, fun j hj1 hj2 => hc3 j hj2 hj1⟩
      constructor
      · intro h
        have hbr : findCharFrom html '[' colon = none := by
          rw [findCharFrom_none_iff]
          intro j hj hget
          by_cases hjl : j < html.length
          · exact h j hjl hj hget
          · rw [List.get?_eq_getElem?, List.getElem?_eq_none (by omega)] at hget
            cases hget
        rw [extract_array_for_key_of_found html key pos hfind, hcol]
        show (match findCharFrom html '[' colon with
          | none => Except.ok none
          | some b => (extract_js_array html b).map Option.some) = Except.ok none
        rw [hbr]
      · intro b hb1 hb2 hb3
        have hbr : findCharFrom html '[' colon = some b :=
          (findCharFrom_some_iff html '[' colon b).mpr
            ⟨hb1, hb2, fun j hj1 hj2 => hb3 j hj2 hj1⟩
        rw [extract_array_for_key_of_found html key pos hfind, hcol]
        show (match findCharFrom html '[' colon with
          | none => Except.ok none
          | some b => (extract_js_array html b).map Option.some) =
            (extract_js_array html b).map Option.some
        rw [hbr]

theorem extract_array_for_key_cases_witness :
    extract_array_for_key ['k', ':', '[', '1', ']'] ['k'] =
        Except.ok (some ['[', '1', ']']) ∧
    extract_array_for_key ['a', 'b'] ['z'] = Except.ok none := by
  constructor
  · have h := ((((extract_array_for_key_cases ['k', ':', '[', '1', ']'] ['k']).2 0
      (by decide) (by decide)).2 1 (by decide) (by decide) (by decide)).2 2
      (by decide) (by decide) (by decide))
    rw [h]
    rfl
  · exact (extract_array_for_key_cases ['a', 'b'] ['z']).1 (by decide)

/-! ## Lemmas about the cheapest-offer selection -/

theorem pyMinGo_spec (f : α → Nat) : ∀ (t : List α) (best : α),
    ∃ pre post, best :: t = pre ++ pyMinGo f best t :: post ∧
      (∀ x ∈ pre, f (pyMinGo f best t) < f x) ∧
      (∀ x ∈ best :: t, f (pyMinGo f best t) ≤ f x) := by
  intro t
  induction t with
  | nil =>
    intro best
    refine ⟨[], [], rfl, by simp, ?_⟩
    intro x hx
    have hx2 : x = best := List.mem_singleton.mp hx
    rw [hx2]
    exact Nat.le_refl _
  | cons x t ih =>
    intro best
    have hred : pyMinGo f best (x :: t) = pyMinGo f (if f x < f best then x else best) t := rfl
    by_cases hx : f x < f best
    · rw [hred, if_pos hx]
      obtain ⟨pre, post, heq, hstrict, hmin⟩ := ih x
      have hmx : f (pyMinGo f x t) ≤ f x := hmin x (List.mem_cons_self x t)
      refine ⟨best :: pre, post, ?_, ?_, ?_⟩
      · rw [List.cons_append, ← heq]
      · intro y hy
        rcases List.mem_cons.mp hy with h | h
        · rw [h]; omega
        · exact hstrict y h
      · intro y hy
        rcases List.mem_cons.mp hy with h | h
        · rw [h]; omega
        · exact hmin y h
    · rw [hred, if_neg hx]
      have hbx : f best ≤ f x := by omega
      obtain ⟨pre, post, heq, hstrict, hmin⟩ := ih best
      have hmb : f (pyMinGo f best t) ≤ f best := hmin best (List.mem_cons_self best t)
      cases pre with
      | nil =>
        rw [List.nil_append] at heq
        injection heq with h1 h2
        refine ⟨[], x :: post, ?_, by simp, ?_⟩
        · rw [List.nil_append, ← h1, ← h2]
        · intro y hy
          rcases List.mem_cons.mp hy with h | h
          · rw [h]; omega
          rcases List.mem_cons.mp h with h3 | h3
          · rw [h3]; omega
          · exact hmin y (List.mem_cons_of_mem best h3)
      | cons z pre2 =>
        rw [List.cons_append] at heq
        injection heq with h1 h2
        have hzs : f (pyMinGo f best t) < f z := hstrict z (List.mem_cons_self z pre2)
        have hzb : f (pyMinGo f best t) < f best := by rw [← h1] at hzs; exact hzs
        refine ⟨best :: x :: pre2, post, ?_, ?_, ?_⟩
        · rw [List.cons_append, List.cons_append, ← h2]
        · intro y hy
          rcases List.mem_cons.mp hy with h | h
          · rw [h]; omega
          rcases List.mem_cons.mp h with h3 | h3
          · rw [h3]; omega
          · exact hstrict y (List.mem_cons_of_mem z h3)
        · intro y hy
          rcases List.mem_cons.mp hy with h | h
          · rw [h]; omega
          rcases List.mem_cons.mp h with h3 | h3
          · rw [h3]; omega
          · exact hmin y (List.mem_cons_of_mem best h3)

theorem clean_price_to_int_some (s : List Char) :
    clean_price_to_int (some s) =
      if s = [] then 10 ^ 12
      else if s.filter Char.isDigit = [] then 10 ^ 12
      else digitsVal (s.filter Char.isDigit) := rfl

/-- C5: on a non-empty offer sequence the selection returns the offer whose
price key (digits of the price text, with absent or digit-free prices
mapped to the sentinel `10^12`) is minimal, ties broken by first
occurrence: every offer strictly before the returned one has a strictly
larger key, and no offer anywhere has a smaller one.  The price-key facts
of the claim are included: `"₹1,234"` reduces to `1234`, and absent or
digit-free prices reduce to the sentinel. -/
theorem cheapest_offer_first_minimum (offers : List Offer) (h : offers ≠ []) :
    (∃ m pre post, cheapest_offer offers = some m ∧ offers = pre ++ m :: post ∧
      (∀ o ∈ pre, offerKey m < offerKey o) ∧ ∀ o ∈ offers, offerKey m ≤ offerKey o) ∧
    clean_price_to_int (some ("₹1,234".toList)) = 1234 ∧
    clean_price_to_int none = 10 ^ 12 ∧
    ∀ s, (∀ c ∈ s, ¬ (c.isDigit = true)) → clean_price_to_int (some s) = 10 ^ 12 := by
  refine ⟨?_, by decide, rfl, ?_⟩
  · cases offers with
    | nil => exact absurd rfl h
    | cons x t =>
      obtain ⟨pre, post, heq, hstrict, hmin⟩ := pyMinGo_spec offerKey t x
      exact ⟨pyMinGo offerKey x t, pre, post, rfl, heq, hstrict, hmin⟩
  · intro s hs
    rw [clean_price_to_int_some]
    by_cases hnil : s = []
    · rw [if_pos hnil]
    · rw [if_neg hnil, if_pos (List.filter_eq_nil_iff.mpr hs)]

theorem cheapest_offer_first_minimum_witness :
    ∃ m pre post,
      cheapest_offer
          [⟨"A".toList, none, some ("₹500".toList), none⟩,
           ⟨"B".toList, none, none, none⟩,
           ⟨"C".toList, none, some ("₹300".toList), none⟩] = some m ∧
      ([⟨"A".toList, none, some ("₹500".toList), none⟩,
        ⟨"B".toList, none, none, none⟩,
        ⟨"C".toList, none, some ("₹300".toList), none⟩] : List Offer) = pre ++ m :: post ∧
      (∀ o ∈ pre, offerKey m < offerKey o) ∧
      ∀ o ∈ [⟨"A".toList, none, some ("₹500".toList), none⟩,
             ⟨"B".toList, none, none, none⟩,
             ⟨"C".toList, none, some ("₹300".toList), none⟩], offerKey m ≤ offerKey o :=
  (cheapest_offer_first_minimum _ (by simp)).1

/-! ## Lemmas about merchant inference -/

theorem wwwdot_isPrefixOf_iff (c : Char) (t : List Char) :
    ['w', 'w', 'w', '.'].isPrefixOf (c :: t) = true ↔
      c = 'w' ∧ ∃ t1, t = 'w' :: 'w' :: '.' :: t1 := by
  cases t with
  | nil => simp [List.isPrefixOf_cons₂]
  | cons a t2 =>
    cases t2 with
    | nil => simp [List.isPrefixOf_cons₂]
    | cons b t3 =>
      cases t3 with
      | nil => simp [List.isPrefixOf_cons₂]
      | cons d t4 =>
        simp only [List.isPrefixOf_cons₂, List.isPrefixOf_nil_left, Bool.and_true,
          Bool.and_eq_true, beq_iff_eq]
        constructor
        · rintro ⟨h1, h2, h3, h4⟩
          exact ⟨h1.symm, t4, by rw [← h2, ← h3, ← h4]⟩
        · rintro ⟨h1, t1, heq⟩
          injection heq with e1 heq
          injection heq with e2 heq
          injection heq with e3 _
          exact ⟨h1.symm, e1.symm, e2.symm, e3.symm⟩

theorem replaceWWW_of_no_occurrence (l : List Char) :
    findSub ['w', 'w', 'w', '.'] l = none → replaceWWW l = l := by
  induction l using replaceWWW.induct with
  | case1 t ih =>
    intro h
    unfold findSub at h
    rw [if_pos (by simp)] at h
    cases h
  | case2 c t hne ih =>
    intro h
    unfold findSub at h
    have hnp : ¬(['w', 'w', 'w', '.'].isPrefixOf (c :: t) = true) := by
      intro hp
      obtain ⟨h1, t1, h2⟩ := (wwwdot_isPrefixOf_iff c t).mp hp
      exact hne t1 h1 h2
    rw [if_neg hnp] at h
    have ht : findSub ['w', 'w', 'w', '.'] t = none := by
      cases hf : findSub ['w', 'w', 'w', '.'] t with
      | none => rfl
      | some i => rw [hf] at h; cases h
    rw [replaceWWW.eq_2 c t hne, ih ht]
  | case3 => intro _; rfl

theorem replaceWWW_eq_stripLeading (l : List Char)
    (h : findSub ['w', 'w', 'w', '.'] (stripLeadingWWW l) = none) :
    replaceWWW l = stripLeadingWWW l := by
  unfold stripLeadingWWW at h ⊢
  by_cases hp : ['w', 'w', 'w', '.'].isPrefixOf l = true
  · rw [if_pos hp] at h ⊢
    obtain ⟨t, rfl⟩ : ∃ t, l = 'w' :: 'w' :: 'w' :: '.' :: t := by
      cases l with
      | nil => cases hp
      | cons c t0 =>
        obtain ⟨h1, t1, h2⟩ := (wwwdot_isPrefixOf_iff c t0).mp hp
        exact ⟨t1, by rw [h1, h2]⟩
    rw [replaceWWW.eq_1]
    exact replaceWWW_of_no_occurrence t h
  · rw [if_neg hp] at h ⊢
    exact replaceWWW_of_no_occurrence l h

/-- C6 counterexample: the code's `domain.replace("www.", "")` removes
EVERY occurrence of `"www."`, not only a leading one.  On the host
`wwww.flipkart.com` (no leading `"www."`, but one starting at index 1) the
code produces `"Wflipkart"` while the claim's leading-strip reading
produces `"Wwww"`. -/
theorem domain_to_merchant_counterexample :
    domain_to_merchant ("https://wwww.flipkart.com/x".toList) ("Unknown".toList) =
        ("Wflipkart".toList) ∧
    domain_to_merchant_spec ("https://wwww.flipkart.com/x".toList) ("Unknown".toList) =
        ("Wwww".toList) ∧
    domain_to_merchant ("https://wwww.flipkart.com/x".toList) ("Unknown".toList) ≠
      domain_to_merchant_spec ("https://wwww.flipkart.com/x".toList) ("Unknown".toList) :=
  ⟨by decide, by decide, by decide⟩

/-- C6 (amended): merchant inference removes every occurrence of the
substring `"www."` from the lowercased host (Python `str.replace`), not
only a leading one; on every URL whose host contains no occurrence of
`"www."` other than an optional leading one, this coincides with the
claim's leading-strip reading.  The empty-URL fallback and the two
concrete scenarios of the claim hold as stated. -/
theorem domain_to_merchant_characterization :
    (∀ fb, domain_to_merchant [] fb = fb) ∧
    domain_to_merchant ("https://www.flipkart.com/p/xyz".toList) ("Unknown".toList) =
      ("Flipkart".toList) ∧
    domain_to_merchant ("https://unknownstore.example.com/x".toList) ("Unknown".toList) =
      ("Unknownstore".toList) ∧
    (∀ url fb,
      findSub ['w', 'w', 'w', '.'] (stripLeadingWWW ((netlocOf url).map Char.toLower)) = none →
      domain_to_merchant url fb = domain_to_merchant_spec url fb) := by
  refine ⟨?_, by decide, by decide, ?_⟩
  · intro fb
    unfold domain_to_merchant
    rw [if_pos rfl]
  · intro url fb h
    unfold domain_to_merchant domain_to_merchant_spec
    by_cases hu : url = []
    · rw [if_pos hu, if_pos hu]
    · rw [if_neg hu, if_neg hu, replaceWWW_eq_stripLeading _ h]

theorem domain_to_merchant_characterization_witness :
    domain_to_merchant ("https://www.flipkart.com/p/xyz".toList) ("Unknown".toList) =
      domain_to_merchant_spec ("https://www.flipkart.com/p/xyz".toList) ("Unknown".toList) :=
  domain_to_merchant_characterization.2.2.2 _ _ (by decide)

/-! ## The search projection -/

/-- C7 counterexample: the slug source falls back from `prodSearch` to
`prod` not only when `prodSearch` is absent but also when it is present
and EMPTY — Python's `or` treats the empty string as falsy.  On a record
with `prodSearch = ""` and `prod = "abc"` the code slugifies `"abc"`,
while the claim's absent-only fallback slugifies `""`. -/
theorem search_projection_counterexample :
    search_projection [⟨some ("abc".toList), some [], some 1, some 3, some 5⟩] ≠
      [search_hit_claim ⟨some ("abc".toList), some [], some 1, some 3, some 5⟩] ∧
    (search_projection [⟨some ("abc".toList), some [], some 1, some 3, some 5⟩]).map
        SearchHit.redirect_url =
      [("https://buyhatke.com/abc-price-in-india-3-5".toList)] :=
  ⟨by decide, by decide⟩

/-- C7 (amended): the search projection yields exactly one `SearchHit` per
decoded record, in order, never dropping a record; the slug is taken from
`prodSearch`, falling back to `prod` when `prodSearch` is absent OR empty
(and to `""` when `prod` is also absent or empty); and the redirect URL is
the base followed by the slug, `"-price-in-india-"`, the `pos` value, `"-"`
and the `internalPid` value.  The projection is a pure function of the
record list, hence deterministic. -/
theorem search_projection_characterization (ps : List SearchRec) :
    (search_projection ps).length = ps.length ∧
    ∀ i (h : i < ps.length),
      (search_projection ps).get? i = some
        { title := (ps.get ⟨i, h⟩).prod
          price := (ps.get ⟨i, h⟩).price
          redirect_url :=
            "https://buyhatke.com/".toList ++
              normalize_slug (pyOrStr (ps.get ⟨i, h⟩).prodSearch
                (pyOrStr (ps.get ⟨i, h⟩).prod []))
              ++ "-price-in-india-".toList ++ pyStrInt (ps.get ⟨i, h⟩).pos
              ++ ['-'] ++ pyStrInt (ps.get ⟨i, h⟩).internalPid } := by
  constructor
  · exact List.length_map ps search_hit_of
  · intro i h
    unfold search_projection
    rw [List.get?_map, List.get?_eq_get h]
    rfl

theorem search_projection_characterization_witness :
    (search_projection [⟨some ("tv".toList), none, none, some 1, some 2⟩]).get? 0 =
      some { title := some ("tv".toList), price := none,
             redirect_url := "https://buyhatke.com/tv-price-in-india-1-2".toList } := by
  rw [(search_projection_characterization
    [⟨some ("tv".toList), none, none, some 1, some 2⟩]).2 0 (by decide)]
  decide

/-! ## Number rendering and the offer projection -/

theorem digitChar_isDigit (d : Nat) : (digitChar d).isDigit = true := by
  unfold digitChar
  split_ifs <;> decide

theorem digitChar_toNat (d : Nat) (h : d < 10) : (digitChar d).toNat - 48 = d := by
  interval_cases d <;> decide

theorem natDigitsF_append (fuel : Nat) : ∀ (n : Nat) (acc : List Char),
    natDigitsF fuel n acc = natDigitsF fuel n [] ++ acc := by
  induction fuel with
  | zero => intro n acc; rfl
  | succ fuel ih =>
    intro n acc
    unfold natDigitsF
    by_cases h : n < 10
    · rw [if_pos h, if_pos h]
      rfl
    · rw [if_neg h, if_neg h, ih (n / 10) (digitChar (n % 10) :: acc),
        ih (n / 10) [digitChar (n % 10)], List.append_assoc]
      rfl

theorem natDigitsF_mem (fuel : Nat) : ∀ (n : Nat) (acc : List Char) (c : Char),
    c ∈ natDigitsF fuel n acc → c.isDigit = true ∨ c ∈ acc := by
  induction fuel with
  | zero => intro n acc c hc; exact Or.inr hc
  | succ fuel ih =>
    intro n acc c hc
    unfold natDigitsF at hc
    by_cases h : n < 10
    · rw [if_pos h] at hc
      rcases List.mem_cons.mp hc with h2 | h2
      · exact Or.inl (h2 ▸ digitChar_isDigit n)
      · exact Or.inr h2
    · rw [if_neg h] at hc
      rcases ih (n / 10) (digitChar (n % 10) :: acc) c hc with h2 | h2
      · exact Or.inl h2
      rcases List.mem_cons.mp h2 with h3 | h3
      · exact Or.inl (h3 ▸ digitChar_isDigit (n % 10))
      · exact Or.inr h3

theorem natDigits_mem (n : Nat) (c : Char) (hc : c ∈ natDigits n) : c.isDigit = true := by
  rcases natDigitsF_mem (n + 1) n [] c hc with h | h
  · exact h
  · cases h

theorem digitsVal_append_single (xs : List Char) (d : Char) :
    digitsVal (xs ++ [d]) = digitsVal xs * 10 + (d.toNat - 48) := by
  unfold digitsVal
  rw [List.foldl_append]
  rfl

theorem natDigitsF_val (fuel : Nat) : ∀ (n : Nat), n < fuel →
    digitsVal (natDigitsF fuel n []) = n := by
  induction fuel with
  | zero => intro n h; omega
  | succ fuel ih =>
    intro n h
    unfold natDigitsF
    by_cases h10 : n < 10
    · rw [if_pos h10]
      show digitsVal [digitChar n] = n
      have h1 : digitsVal [digitChar n] = 0 * 10 + ((digitChar n).toNat - 48) := rfl
      rw [h1, digitChar_toNat n h10]
      omega
    · rw [if_neg h10, natDigitsF_append fuel (n / 10) [digitChar (n % 10)],
        digitsVal_append_single, ih (n / 10) (by omega), digitChar_toNat (n % 10) (by omega)]
      omega

theorem natDigits_val (n : Nat) : digitsVal (natDigits n) = n :=
  natDigitsF_val (n + 1) n (by omega)

theorem natDigitsF_ne_nil (fuel : Nat) : ∀ (n : Nat) (acc : List Char), n < fuel →
    natDigitsF fuel n acc ≠ [] := by
  induction fuel with
  | zero => intro n acc h; omega
  | succ fuel ih =>
    intro n acc h
    unfold natDigitsF
    by_cases h10 : n < 10
    · rw [if_pos h10]
      exact List.cons_ne_nil _ _
    · rw [if_neg h10]
      exact ih (n / 10) _ (by omega)

theorem chunk3_mem : ∀ (l : List Char) (c : Char), c ∈ chunk3 l → c ∈ l ∨ c = ',' := by
  intro l
  induction l using chunk3.induct with
  | case1 a b c d t ih =>
    intro x hx
    rw [chunk3] at hx
    rcases List.mem_cons.mp hx with h | h
    · exact Or.inl (by rw [h]; exact List.mem_cons_self _ _)
    rcases List.mem_cons.mp h with h2 | h2
    · exact Or.inl (by rw [h2]; simp)
    rcases List.mem_cons.mp h2 with h3 | h3
    · exact Or.inl (by rw [h3]; simp)
    rcases List.mem_cons.mp h3 with h4 | h4
    · exact Or.inr h4
    · rcases ih x h4 with h5 | h5
      · exact Or.inl (by simp at h5 ⊢; tauto)
      · exact Or.inr h5
  | case2 l hside =>
    intro x hx
    have hcl : chunk3 l = l := by
      unfold chunk3
      split
      · rename_i x a2 b2 c2 d2 t2
        exact (hside a2 b2 c2 d2 t2 rfl).elim
      · rfl
    rw [hcl] at hx
    exact Or.inl hx

theorem chunk3_filter (p : Char → Bool) (hp : p ',' = false) :
    ∀ (l : List Char), (chunk3 l).filter p = l.filter p := by
  intro l
  induction l using chunk3.induct with
  | case1 a b c d t ih =>
    rw [chunk3]
    simp only [List.filter_cons, hp, Bool.false_eq_true, if_false, ih]
  | case2 l hside =>
    have hcl : chunk3 l = l := by
      unfold chunk3
      split
      · rename_i x a2 b2 c2 d2 t2
        exact (hside a2 b2 c2 d2 t2 rfl).elim
      · rfl
    rw [hcl]

theorem natDigits_filter_not_comma (n : Nat) :
    (natDigits n).filter (fun c => !(c == ',')) = natDigits n := by
  rw [List.filter_eq_self]
  intro c hc
  have hd := natDigits_mem n c hc
  simp only [Bool.not_eq_true']
  rw [beq_eq_false_iff_ne]
  intro he
  rw [he] at hd
  cases hd

theorem natDigits_filter_isDigit (n : Nat) :
    (natDigits n).filter Char.isDigit = natDigits n := by
  rw [List.filter_eq_self]
  exact natDigits_mem n

theorem commaFormat_filter_ne_comma (m : Int) :
    (commaFormat m).filter (fun c => !(c == ',')) = intStr m := by
  unfold commaFormat intStr
  have hmain : ((chunk3 (natDigits m.natAbs).reverse).reverse).filter (fun c => !(c == ',')) =
      natDigits m.natAbs := by
    rw [List.filter_reverse, chunk3_filter _ (by decide), List.filter_reverse,
      List.reverse_reverse, natDigits_filter_not_comma]
  by_cases hm : m < 0
  · rw [if_pos hm, if_pos hm, List.filter_append, hmain]
    rfl
  · rw [if_neg hm, if_neg hm, List.nil_append, hmain]

theorem commaFormat_filter_isDigit (m : Int) :
    digitsVal ((commaFormat m).filter Char.isDigit) = m.natAbs := by
  unfold commaFormat
  have hmain : ((chunk3 (natDigits m.natAbs).reverse).reverse).filter Char.isDigit =
      natDigits m.natAbs := by
    rw [List.filter_reverse, chunk3_filter _ (by decide), List.filter_reverse,
      List.reverse_reverse, natDigits_filter_isDigit]
  by_cases hm : m < 0
  · rw [if_pos hm, List.filter_append, hmain]
    have h1 : List.filter Char.isDigit ['-'] = [] := by decide
    rw [h1, List.nil_append, natDigits_val]
  · rw [if_neg hm, List.nil_append, hmain, natDigits_val]

theorem commaFormat_mem (m : Int) (c : Char) (hc : c ∈ commaFormat m) :
    c.isDigit = true ∨ c = ',' ∨ c = '-' := by
  unfold commaFormat at hc
  rw [List.mem_append] at hc
  rcases hc with h | h
  · by_cases hm : m < 0
    · rw [if_pos hm] at h
      exact Or.inr (Or.inr (List.mem_singleton.mp h))
    · rw [if_neg hm] at h
      cases h
  · rw [List.mem_reverse] at h
    rcases chunk3_mem _ c h with h2 | h2
    · rw [List.mem_reverse] at h2
      exact Or.inl (natDigits_mem m.natAbs c h2)
    · exact Or.inr (Or.inl h2)

/-- C9: the offer projection yields one offer per decoded deal record, in
order; its price field is absent exactly when the record's raw price is
null/missing, and otherwise is the currency prefix `'₹'` followed by the
comma-grouped rendering of the integer truncation of the raw price:
deleting the separators leaves exactly the decimal rendering of the
truncation, every character after the prefix is a digit, a separator or
the sign, and the digit characters re-read as an integer give back the
truncation's absolute value — never any other form of text. -/
theorem offers_projection_price_format (deals : List DealRec) :
    (offers_projection deals).length = deals.length ∧
    ∀ i (h : i < deals.length),
      (offers_projection deals).get? i = some (offer_of (deals.get ⟨i, h⟩)) ∧
      ((offer_of (deals.get ⟨i, h⟩)).price = none ↔ (deals.get ⟨i, h⟩).price = none) ∧
      ∀ q, (deals.get ⟨i, h⟩).price = some q →
        (offer_of (deals.get ⟨i, h⟩)).price = some ('₹' :: commaFormat (pyIntOfRat q)) ∧
        (commaFormat (pyIntOfRat q)).filter (fun c => !(c == ',')) = intStr (pyIntOfRat q) ∧
        (∀ c ∈ commaFormat (pyIntOfRat q), c.isDigit = true ∨ c = ',' ∨ c = '-') ∧
        digitsVal ((commaFormat (pyIntOfRat q)).filter Char.isDigit) = (pyIntOfRat q).natAbs := by
  constructor
  · exact List.length_map deals offer_of
  · intro i h
    refine ⟨?_, ?_, ?_⟩
    · unfold offers_projection
      rw [List.get?_map, List.get?_eq_get h]
      rfl
    · unfold offer_of rupee
      cases (deals.get ⟨i, h⟩).price with
      | none => simp
      | some q => simp
    · intro q hq
      refine ⟨?_, commaFormat_filter_ne_comma _, commaFormat_mem _, commaFormat_filter_isDigit _⟩
      unfold offer_of rupee
      rw [hq]
      rfl

theorem offers_projection_price_format_witness :
    (offers_projection [⟨some (mkRat (-7) 2), none, none⟩]).get? 0 =
        some (offer_of ⟨some (mkRat (-7) 2), none, none⟩) ∧
    (offer_of ⟨some (mkRat (-7) 2), none, none⟩).price =
        some ("₹-3".toList) ∧
    (offer_of ⟨some (1234567 : Rat), none, none⟩).price = some ("₹1,234,567".toList) := by
  have h1 := ((offers_projection_price_format
    [⟨some (mkRat (-7) 2), none, none⟩]).2 0 (by decide))
  have h2 := (h1.2.2 (mkRat (-7) 2) rfl).1
  have h3 := ((offers_projection_price_format [⟨some (1234567 : Rat), none, none⟩]).2 0
    (by decide))
  have h4 := (h3.2.2 (1234567 : Rat) rfl).1
  refine ⟨h1.1, ?_, ?_⟩
  · exact h2.trans (by decide)
  · exact h4.trans (by decide)

/-! ## Lemmas about slugification -/

theorem lowAlnum_toNat (c : Char) (h : lowAlnum c = true) :
    (97 ≤ c.toNat ∧ c.toNat ≤ 122) ∨ (48 ≤ c.toNat ∧ c.toNat ≤ 57) := by
  unfold lowAlnum at h
  rw [decide_eq_true_iff] at h
  rcases h with ⟨h1, h2⟩ | ⟨h1, h2⟩
  · rw [Char.le_def, UInt32.le_def, BitVec.le_def] at h1 h2
    exact Or.inl ⟨h1, h2⟩
  · rw [Char.le_def, UInt32.le_def, BitVec.le_def] at h1 h2
    exact Or.inr ⟨h1, h2⟩

theorem toLower_fix (c : Char) (h : lowAlnum c = true ∨ c = '-') : c.toLower = c := by
  unfold Char.toLower
  rw [if_neg]
  intro ⟨ha, hb⟩
  rcases h with h | h
  · rcases lowAlnum_toNat c h with ⟨h1, h2⟩ | ⟨h1, h2⟩ <;> omega
  · subst h
    have h45 : ('-').toNat = 45 := by decide
    rw [h45] at ha
    omega

theorem isWS_false_of_slug (c : Char) (h : lowAlnum c = true ∨ c = '-') : isWS c = false := by
  rcases h with h | h
  · unfold isWS
    rw [decide_eq_false_iff_not]
    rintro (rfl | rfl | rfl | rfl) <;> exact absurd h (by decide)
  · rw [h]
    decide

theorem lowAlnum_ne_hyphen (c : Char) (h : lowAlnum c = true) : c ≠ '-' := by
  intro he
  rw [he] at h
  exact absurd h (by decide)

theorem dropWhile_eq_self_of_false (p : Char → Bool) (l : List Char)
    (h : ∀ c ∈ l, p c = false) : l.dropWhile p = l := by
  cases l with
  | nil => rfl
  | cons c t =>
    rw [List.dropWhile_cons, if_neg]
    rw [h c (List.mem_cons_self c t)]
    exact Bool.false_ne_true

theorem dropWhile_eq_self_of_head (p : Char → Bool) (l : List Char)
    (h : ∀ c, l.head? = some c → p c = false) : l.dropWhile p = l := by
  cases l with
  | nil => rfl
  | cons c t =>
    rw [List.dropWhile_cons, if_neg]
    rw [h c rfl]
    exact Bool.false_ne_true

theorem map_eq_self_of (f : Char → Char) (l : List Char)
    (h : ∀ c ∈ l, f c = c) : l.map f = l := by
  induction l with
  | nil => rfl
  | cons c t ih =>
    rw [List.map_cons, h c (List.mem_cons_self c t),
      ih (fun d hd => h d (List.mem_cons_of_mem c hd))]

theorem dropWhile_head_false (p : Char → Bool) (l : List Char) (c : Char)
    (h : (l.dropWhile p).head? = some c) : p c = false := by
  have hm := List.head?_dropWhile_not p l
  rw [h] at hm
  exact hm

theorem noDD_cons₂ (c d : Char) (t : List Char) :
    noDD (c :: d :: t) = (!(decide (c = '-') && decide (d = '-')) && noDD (d :: t)) := rfl

theorem noDD_cons_elim (c : Char) (t : List Char) (h : noDD (c :: t) = true) :
    noDD t = true ∧ ∀ d, t.head? = some d → c = '-' → d ≠ '-' := by
  cases t with
  | nil => exact ⟨rfl, by intro d hd; cases hd⟩
  | cons d t2 =>
    rw [noDD_cons₂, Bool.and_eq_true] at h
    refine ⟨h.2, ?_⟩
    intro e he hc hd
    rw [List.head?_cons, Option.some.injEq] at he
    subst he
    rw [hc, hd] at h
    simp at h

theorem noDD_cons_of_head (c : Char) (t : List Char) (ht : noDD t = true)
    (hh : ∀ d, t.head? = some d → ¬(c = '-' ∧ d = '-')) : noDD (c :: t) = true := by
  cases t with
  | nil => rfl
  | cons d t2 =>
    rw [noDD_cons₂, Bool.and_eq_true]
    refine ⟨?_, ht⟩
    have := hh d rfl
    by_cases hc : c = '-'
    · by_cases hd : d = '-'
      · exact absurd ⟨hc, hd⟩ this
      · simp [hd]
    · simp [hc]

theorem noDD_cons_of_ne (c : Char) (t : List Char) (hc : c ≠ '-') (ht : noDD t = true) :
    noDD (c :: t) = true :=
  noDD_cons_of_head c t ht (fun _ _ h => hc h.1)

theorem noDD_dropWhile (p : Char → Bool) (l : List Char) (h : noDD l = true) :
    noDD (l.dropWhile p) = true := by
  induction l with
  | nil => rfl
  | cons c t ih =>
    rw [List.dropWhile_cons]
    obtain ⟨ht, _⟩ := noDD_cons_elim c t h
    split_ifs with hp
    · exact ih ht
    · exact h

theorem noDD_append_left : ∀ (a b : List Char), noDD (a ++ b) = true → noDD a = true := by
  intro a
  induction a with
  | nil => intro b _; rfl
  | cons c t ih =>
    intro b h
    cases t with
    | nil => rfl
    | cons d t2 =>
      rw [List.cons_append, List.cons_append, noDD_cons₂, Bool.and_eq_true] at h
      rw [noDD_cons₂, Bool.and_eq_true]
      exact ⟨h.1, ih b (by rw [List.cons_append]; exact h.2)⟩

theorem subNA_cons (inRun : Bool) (c : Char) (t : List Char) :
    subNA inRun (c :: t) =
      if lowAlnum c then c :: subNA false t
      else if inRun then subNA true t else '-' :: subNA true t := rfl

theorem collapseHy_cons (inRun : Bool) (c : Char) (t : List Char) :
    collapseHy inRun (c :: t) =
      if c = '-' then (if inRun then collapseHy true t else '-' :: collapseHy true t)
      else c :: collapseHy false t := rfl

theorem goodTail_cons_hyphen (d : Char) (t2 : List Char)
    (h : goodTail ('-' :: d :: t2) = true) : lowAlnum d = true ∧ goodTail t2 = true := by
  rw [goodTail.eq_3, if_pos rfl, Bool.and_eq_true] at h
  exact h

theorem goodTail_cons_ne (d : Char) (t2 : List Char) (hd : ¬ d = '-')
    (h : goodTail (d :: t2) = true) : lowAlnum d = true ∧ goodTail t2 = true := by
  cases t2 with
  | nil =>
    rw [goodTail.eq_2, if_neg hd, Bool.and_eq_true] at h
    exact h
  | cons e t3 =>
    rw [goodTail.eq_3, if_neg hd, Bool.and_eq_true] at h
    exact h

theorem goodTail_chars : ∀ (t : List Char), goodTail t = true →
    ∀ c ∈ t, lowAlnum c = true ∨ c = '-' := by
  intro t
  induction t using goodTail.induct with
  | case1 => intro _ c hc; cases hc
  | case2 => intro h; exact absurd h (by decide)
  | case3 d t2 ih =>
    intro h c hc
    obtain ⟨hda, ht⟩ := goodTail_cons_hyphen d t2 h
    rcases List.mem_cons.mp hc with h3 | h3
    · exact Or.inr h3
    rcases List.mem_cons.mp h3 with h4 | h4
    · exact Or.inl (h4 ▸ hda)
    · exact ih ht c h4
  | case4 d t2 hd ih =>
    intro h c hc
    obtain ⟨hda, ht⟩ := goodTail_cons_ne d t2 hd h
    rcases List.mem_cons.mp hc with h3 | h3
    · exact Or.inl (h3 ▸ hda)
    · exact ih ht c h3

theorem goodTail_noDD : ∀ (t : List Char), goodTail t = true → noDD t = true := by
  intro t
  induction t using goodTail.induct with
  | case1 => intro _; rfl
  | case2 => intro h; exact absurd h (by decide)
  | case3 d t2 ih =>
    intro h
    obtain ⟨hda, ht⟩ := goodTail_cons_hyphen d t2 h
    refine noDD_cons_of_head '-' (d :: t2)
      (noDD_cons_of_ne d t2 (lowAlnum_ne_hyphen d hda) (ih ht)) ?_
    intro e he hp
    rw [List.head?_cons, Option.some.injEq] at he
    exact lowAlnum_ne_hyphen d hda (he ▸ hp.2)
  | case4 d t2 hd ih =>
    intro h
    obtain ⟨hda, ht⟩ := goodTail_cons_ne d t2 hd h
    exact noDD_cons_of_ne d t2 hd (ih ht)

theorem goodTail_last : ∀ (t : List Char), goodTail t = true →
    ∀ c, t.getLast? = some c → lowAlnum c = true := by
  intro t
  induction t using goodTail.induct with
  | case1 => intro _ c hc; cases hc
  | case2 => intro h; exact absurd h (by decide)
  | case3 d t2 ih =>
    intro h c hc
    obtain ⟨hda, ht⟩ := goodTail_cons_hyphen d t2 h
    rw [List.getLast?_cons_cons] at hc
    cases t2 with
    | nil =>
      rw [show ([d] : List Char).getLast? = some d from rfl, Option.some.injEq] at hc
      rw [← hc]
      exact hda
    | cons e t3 =>
      rw [List.getLast?_cons_cons] at hc
      exact ih ht c hc
  | case4 d t2 hd ih =>
    intro h c hc
    obtain ⟨hda, ht⟩ := goodTail_cons_ne d t2 hd h
    cases t2 with
    | nil =>
      rw [show ([d] : List Char).getLast? = some d from rfl, Option.some.injEq] at hc
      rw [← hc]
      exact hda
    | cons e t3 =>
      rw [List.getLast?_cons_cons] at hc
      exact ih ht c hc

theorem goodSlug_cons (c : Char) (t : List Char) (h : goodSlug (c :: t) = true) :
    lowAlnum c = true ∧ goodTail t = true := by
  have h2 : (lowAlnum c && goodTail t) = true := h
  rw [Bool.and_eq_true] at h2
  exact h2

theorem goodSlug_chars (l : List Char) (h : goodSlug l = true) :
    ∀ c ∈ l, lowAlnum c = true ∨ c = '-' := by
  cases l with
  | nil => intro c hc; cases hc
  | cons c0 t =>
    obtain ⟨hc0, ht⟩ := goodSlug_cons c0 t h
    intro c hc
    rcases List.mem_cons.mp hc with h3 | h3
    · exact Or.inl (h3 ▸ hc0)
    · exact goodTail_chars t ht c h3

theorem goodSlug_noDD (l : List Char) (h : goodSlug l = true) : noDD l = true := by
  cases l with
  | nil => rfl
  | cons c0 t =>
    obtain ⟨hc0, ht⟩ := goodSlug_cons c0 t h
    exact noDD_cons_of_ne c0 t (lowAlnum_ne_hyphen c0 hc0) (goodTail_noDD t ht)

theorem goodSlug_head (l : List Char) (h : goodSlug l = true) :
    ∀ c, l.head? = some c → lowAlnum c = true := by
  cases l with
  | nil => intro c hc; cases hc
  | cons c0 t =>
    intro c hc
    rw [List.head?_cons, Option.some.injEq] at hc
    exact hc ▸ (goodSlug_cons c0 t h).1

theorem goodSlug_last (l : List Char) (h : goodSlug l = true) :
    ∀ c, l.getLast? = some c → lowAlnum c = true := by
  cases l with
  | nil => intro c hc; cases hc
  | cons c0 t =>
    obtain ⟨hc0, ht⟩ := goodSlug_cons c0 t h
    intro c hc
    cases t with
    | nil =>
      rw [show ([c0] : List Char).getLast? = some c0 from rfl, Option.some.injEq] at hc
      rw [← hc]
      exact hc0
    | cons d t2 =>
      rw [List.getLast?_cons_cons] at hc
      exact goodTail_last (d :: t2) ht c hc

theorem goodTail_of_facts : ∀ (t : List Char),
    (∀ c ∈ t, lowAlnum c = true ∨ c = '-') → noDD t = true →
    (∀ c, t.getLast? = some c → c ≠ '-') → goodTail t = true := by
  intro t
  induction t using goodTail.induct with
  | case1 => intro _ _ _; rfl
  | case2 =>
    intro _ _ hlast
    exact absurd rfl (hlast '-' rfl)
  | case3 d t2 ih =>
    intro hchars hnodd hlast
    obtain ⟨hnd2, hpair⟩ := noDD_cons_elim '-' (d :: t2) hnodd
    have hd_ne : d ≠ '-' := hpair d rfl rfl
    have hd_al : lowAlnum d = true := by
      rcases hchars d (by simp) with h | h
      · exact h
      · exact absurd h hd_ne
    rw [goodTail.eq_3, if_pos rfl, Bool.and_eq_true]
    refine ⟨hd_al, ?_⟩
    apply ih
    · intro c hc
      exact hchars c (by simp [hc])
    · exact (noDD_cons_elim d t2 hnd2).1
    · intro c hc
      apply hlast c
      rw [List.getLast?_cons_cons]
      cases t2 with
      | nil => cases hc
      | cons e t3 =>
        rw [List.getLast?_cons_cons]
        exact hc
  | case4 d t2 hd ih =>
    intro hchars hnodd hlast
    have hd_al : lowAlnum d = true := by
      rcases hchars d (by simp) with h | h
      · exact h
      · exact absurd h hd
    have heq : goodTail (d :: t2) = (lowAlnum d && goodTail t2) := by
      cases t2 with
      | nil => rw [goodTail.eq_2, if_neg hd]
      | cons e t3 => rw [goodTail.eq_3, if_neg hd]
    rw [heq, Bool.and_eq_true]
    refine ⟨hd_al, ?_⟩
    apply ih
    · intro c hc
      exact hchars c (by simp [hc])
    · exact (noDD_cons_elim d t2 hnodd).1
    · intro c hc
      apply hlast c
      cases t2 with
      | nil => cases hc
      | cons e t3 =>
        rw [List.getLast?_cons_cons]
        exact hc

theorem goodSlug_of_facts (l : List Char)
    (hchars : ∀ c ∈ l, lowAlnum c = true ∨ c = '-') (hnodd : noDD l = true)
    (hhead : ∀ c, l.head? = some c → c ≠ '-')
    (hlast : ∀ c, l.getLast? = some c → c ≠ '-') : goodSlug l = true := by
  cases l with
  | nil => rfl
  | cons c0 t =>
    have hc0 : lowAlnum c0 = true := by
      rcases hchars c0 (by simp) with h | h
      · exact h
      · exact absurd h (hhead c0 rfl)
    show (lowAlnum c0 && goodTail t) = true
    rw [Bool.and_eq_true]
    refine ⟨hc0, ?_⟩
    apply goodTail_of_facts
    · intro c hc
      exact hchars c (by simp [hc])
    · exact (noDD_cons_elim c0 t hnodd).1
    · intro c hc
      apply hlast c
      cases t with
      | nil => cases hc
      | cons d t2 =>
        rw [List.getLast?_cons_cons]
        exact hc

theorem subNA_fix : ∀ (l : List Char),
    (∀ c ∈ l, lowAlnum c = true ∨ c = '-') → noDD l = true →
    subNA false l = l ∧
      (∀ c, l.head? = some c → lowAlnum c = true → subNA true l = l) := by
  intro l
  induction l with
  | nil => exact fun _ _ => ⟨rfl, fun c hc => by cases hc⟩
  | cons c0 t ih =>
    intro hchars hnodd
    obtain ⟨hnt, hpair⟩ := noDD_cons_elim c0 t hnodd
    have iht := ih (fun c hc => hchars c (List.mem_cons_of_mem c0 hc)) hnt
    rcases hchars c0 (List.mem_cons_self c0 t) with hal | hhy
    · constructor
      · rw [subNA_cons, if_pos hal, iht.1]
      · intro c _ _
        rw [subNA_cons, if_pos hal, iht.1]
    · subst hhy
      have htt : subNA true t = t := by
        cases t with
        | nil => rfl
        | cons d t2 =>
          have hd_ne : d ≠ '-' := hpair d rfl rfl
          have hd_al : lowAlnum d = true := by
            rcases hchars d (by simp) with h | h
            · exact h
            · exact absurd h hd_ne
          exact iht.2 d rfl hd_al
      constructor
      · rw [subNA_cons, if_neg (by decide), if_neg Bool.false_ne_true, htt]
      · intro c hc hal
        rw [List.head?_cons, Option.some.injEq] at hc
        rw [← hc] at hal
        exact absurd hal (by decide)

theorem collapseHy_fix : ∀ (l : List Char), noDD l = true →
    collapseHy false l = l ∧
      (∀ c, l.head? = some c → c ≠ '-' → collapseHy true l = l) := by
  intro l
  induction l with
  | nil => exact fun _ => ⟨rfl, fun c hc => by cases hc⟩
  | cons c0 t ih =>
    intro hnodd
    obtain ⟨hnt, hpair⟩ := noDD_cons_elim c0 t hnodd
    have iht := ih hnt
    by_cases hc0 : c0 = '-'
    · subst hc0
      have htt : collapseHy true t = t := by
        cases t with
        | nil => rfl
        | cons d t2 => exact iht.2 d rfl (hpair d rfl rfl)
      constructor
      · rw [collapseHy_cons, if_pos rfl, if_neg Bool.false_ne_true, htt]
      · intro c hc hne
        rw [List.head?_cons, Option.some.injEq] at hc
        exact absurd hc.symm hne
    · constructor
      · rw [collapseHy_cons, if_neg hc0, iht.1]
      · intro c _ _
        rw [collapseHy_cons, if_neg hc0, iht.1]

theorem subNA_chars : ∀ (inRun : Bool) (l : List Char) (c : Char),
    c ∈ subNA inRun l → lowAlnum c = true ∨ c = '-' := by
  intro inRun l
  induction l generalizing inRun with
  | nil => intro c hc; cases hc
  | cons c0 t ih =>
    intro c hc
    rw [subNA_cons] at hc
    by_cases hal : lowAlnum c0 = true
    · rw [if_pos hal] at hc
      rcases List.mem_cons.mp hc with h | h
      · exact Or.inl (h ▸ hal)
      · exact ih false c h
    · rw [if_neg hal] at hc
      cases inRun with
      | true =>
        rw [if_pos rfl] at hc
        exact ih true c hc
      | false =>
        rw [if_neg Bool.false_ne_true] at hc
        rcases List.mem_cons.mp hc with h | h
        · exact Or.inr h
        · exact ih true c h

theorem subNA_noDD : ∀ (l : List Char),
    (noDD (subNA false l) = true ∧ noDD (subNA true l) = true) ∧
      (∀ c, (subNA true l).head? = some c → c ≠ '-') := by
  intro l
  induction l with
  | nil => exact ⟨⟨rfl, rfl⟩, fun c hc => by cases hc⟩
  | cons c0 t ih =>
    obtain ⟨⟨ihf, iht⟩, ihhead⟩ := ih
    by_cases hal : lowAlnum c0 = true
    · have hne := lowAlnum_ne_hyphen c0 hal
      have hcons : noDD (c0 :: subNA false t) = true := noDD_cons_of_ne _ _ hne ihf
      refine ⟨⟨?_, ?_⟩, ?_⟩
      · rw [subNA_cons, if_pos hal]
        exact hcons
      · rw [subNA_cons, if_pos hal]
        exact hcons
      · intro c hc
        rw [subNA_cons, if_pos hal, List.head?_cons, Option.some.injEq] at hc
        rw [← hc]
        exact hne
    · refine ⟨⟨?_, ?_⟩, ?_⟩
      · rw [subNA_cons, if_neg hal, if_neg Bool.false_ne_true]
        refine noDD_cons_of_head '-' (subNA true t) iht ?_
        intro d hd hp
        exact ihhead d hd hp.2
      · rw [subNA_cons, if_neg hal, if_pos rfl]
        exact iht
      · intro c hc
        rw [subNA_cons, if_neg hal, if_pos rfl] at hc
        exact ihhead c hc

theorem reverse_dropWhile_decomp (p : Char → Bool) (x : List Char) :
    x = (x.reverse.dropWhile p).reverse ++ (x.reverse.takeWhile p).reverse := by
  conv_lhs => rw [← List.reverse_reverse x, ← List.takeWhile_append_dropWhile p x.reverse]
  rw [List.reverse_append]

theorem stripHy_facts (l : List Char) :
    (∀ c ∈ stripHy l, c ∈ l) ∧
    (noDD l = true → noDD (stripHy l) = true) ∧
    (∀ c, (stripHy l).head? = some c → c ≠ '-') ∧
    (∀ c, (stripHy l).getLast? = some c → c ≠ '-') := by
  have hdecomp := reverse_dropWhile_decomp (fun c => c = '-')
    (l.dropWhile (fun c => c = '-'))
  have hstrip : stripHy l =
      ((l.dropWhile (fun c => c = '-')).reverse.dropWhile (fun c => c = '-')).reverse := rfl
  refine ⟨?_, ?_, ?_, ?_⟩
  · intro c hc
    have hca : c ∈ l.dropWhile (fun c => c = '-') := by
      rw [hdecomp, List.mem_append]
      exact Or.inl (by rw [← hstrip]; exact hc)
    exact (List.dropWhile_sublist _).subset hca
  · intro hnodd
    have hna : noDD (l.dropWhile (fun c => c = '-')) = true := noDD_dropWhile _ l hnodd
    rw [hdecomp] at hna
    rw [hstrip]
    exact noDD_append_left _ _ hna
  · intro c hc
    cases hsl : stripHy l with
    | nil => rw [hsl] at hc; cases hc
    | cons c0 t0 =>
      rw [hsl, List.head?_cons, Option.some.injEq] at hc
      have ha : (l.dropWhile (fun c => c = '-')).head? = some c0 := by
        rw [hdecomp, ← hstrip, hsl]
        rfl
      have hp := dropWhile_head_false _ _ c0 ha
      have hne : c0 ≠ '-' := of_decide_eq_false hp
      rw [← hc]
      exact hne
  · intro c hc
    rw [hstrip, List.getLast?_reverse] at hc
    exact of_decide_eq_false (dropWhile_head_false _ _ c hc)

theorem goodSlug_normalize (s : List Char) : goodSlug (normalize_slug s) = true := by
  unfold normalize_slug
  have hchars := subNA_chars false ((stripWS s).map Char.toLower)
  have hnodd := (subNA_noDD ((stripWS s).map Char.toLower)).1.1
  rw [(collapseHy_fix _ hnodd).1]
  exact goodSlug_of_facts _
    (fun c hc => hchars c ((stripHy_facts _).1 c hc))
    ((stripHy_facts _).2.1 hnodd)
    ((stripHy_facts _).2.2.1)
    ((stripHy_facts _).2.2.2)

theorem normalize_slug_fix (r : List Char) (h : goodSlug r = true) : normalize_slug r = r := by
  have hchars := goodSlug_chars r h
  have hnodd := goodSlug_noDD r h
  unfold normalize_slug
  have hws : stripWS r = r := by
    unfold stripWS
    rw [dropWhile_eq_self_of_false _ _ (fun c hc => isWS_false_of_slug c (hchars c hc)),
      dropWhile_eq_self_of_false _ _
        (fun c hc => isWS_false_of_slug c (hchars c (List.mem_reverse.mp hc))),
      List.reverse_reverse]
  rw [hws, map_eq_self_of _ _ (fun c hc => toLower_fix c (hchars c hc)),
    (subNA_fix r hchars hnodd).1, (collapseHy_fix r hnodd).1]
  unfold stripHy
  have h1 : r.dropWhile (fun c => c = '-') = r :=
    dropWhile_eq_self_of_head _ _ (fun c hc =>
      decide_eq_false (lowAlnum_ne_hyphen c (goodSlug_head r h c hc)))
  rw [h1]
  have h2 : r.reverse.dropWhile (fun c => c = '-') = r.reverse :=
    dropWhile_eq_self_of_head _ _ (fun c hc => by
      rw [List.head?_reverse] at hc
      exact decide_eq_false (lowAlnum_ne_hyphen c (goodSlug_last r h c hc)))
  rw [h2, List.reverse_reverse]

/-- C8: slugification is idempotent — `normalize_slug (normalize_slug x) =
normalize_slug x` for every input — and every output is well-formed slug
text: lowercase alphanumeric runs joined by single hyphens, with no
leading or trailing hyphen (the `goodSlug` predicate). -/
theorem normalize_slug_idempotent_and_shape (s : List Char) :
    normalize_slug (normalize_slug s) = normalize_slug s ∧
      goodSlug (normalize_slug s) = true :=
  ⟨normalize_slug_fix _ (goodSlug_normalize s), goodSlug_normalize s⟩
